import Mathlib

/-!
Verification of the db-migrate migration tool (Rust sources under src/).

Shallow embedding conventions:
- A Rust str/String is modelled as a list of Unicode scalar values (List Char);
  operations that Rust performs on BYTE indices (str::len, str::split_at) are
  modelled through the UTF-8 byte size of each character (Char.utf8Size), so
  that byte-boundary panics of the real code are visible in the model.
- A panicking str operation is modelled by Except.error ().
- The database session is an opaque command executor: an oracle
  (statement -> Bool) decides whether a schema statement succeeds, and the
  engine state records the ledger table rows plus a log of every statement and
  DDL operation issued, so "no statement was executed" is expressible.
- Unicode character classification tables used by the code
  (char::is_alphanumeric, str::to_lowercase) are taken as parameters, with the
  single facts about them that the proofs need stated as hypotheses.
-/

/-- The set of characters trimmed by Rust str::trim, i.e. the Unicode
White_Space property (char::is_whitespace). -/
def isRustWhitespace (c : Char) : Bool :=
  (c = ' ') || (c = '\t') || (c = '\n') || (c = '\r') ||
  (c = '\u000B') || (c = '\u000C') || (c = '\u0085') || (c = ' ') ||
  (c = ' ') || (' ' ≤ c && c ≤ ' ') ||
  (c = ' ') || (c = ' ') || (c = ' ') || (c = ' ') || (c = '　')

/-- Rust str::trim on the character-list model: remove leading and trailing
whitespace characters. -/
def rustTrim (s : List Char) : List Char :=
  ((s.dropWhile isRustWhitespace).reverse.dropWhile isRustWhitespace).reverse

/-- Rust str::split(sep) for a one-character separator: the list of segments
between occurrences of sep.  Splitting the empty string yields one empty
segment, and adjacent separators yield empty segments, as in Rust. -/
def splitChar (sep : Char) : List Char → List (List Char)
  | [] => [[]]
  | c :: rest =>
    let r := splitChar sep rest
    if c = sep then [] :: r else (c :: r.headD []) :: r.tail

/-- One step of Rust str::lines line-ending handling: a segment that was
terminated by a newline has one trailing carriage return removed. -/
def stripTrailingCR (l : List Char) : List Char :=
  if l.getLast? = some '\r' then l.dropLast else l

/-- Rust str::lines: split on newline characters, drop a final empty segment
(produced by a trailing newline), and strip one carriage return from the end
of every newline-terminated segment. -/
def rustLines (s : List Char) : List (List Char) :=
  let parts := splitChar '\n' s
  let core := parts.dropLast.map stripTrailingCR
  match parts.getLast? with
  | none => []
  | some last => if last.isEmpty then core else core ++ [last]

/-- Fuel-indexed worker for Rust str::trim_end_matches(".cql"): repeatedly
remove a trailing ".cql".  The fuel only makes the recursion structural; it is
always called with enough fuel. -/
def trimEndCqlAux : Nat → List Char → List Char
  | 0, s => s
  | fuel + 1, s =>
    if ['l', 'q', 'c', '.'].isPrefixOf s.reverse then
      trimEndCqlAux fuel (s.take (s.length - 4))
    else s

/-- Rust filename.trim_end_matches(".cql") as used to compute the stem:
removes every trailing ".cql" occurrence. -/
def trim_end_matches_cql (s : List Char) : List Char :=
  trimEndCqlAux s.length s

/-- UTF-8 byte length of a string, matching Rust str::len. -/
def utf8Len (s : List Char) : Nat :=
  (s.map Char.utf8Size).sum

/-- Rust str::split_at(n) on the byte index n: some (front, back) when n is a
character boundary of the UTF-8 encoding, none (a panic in Rust) when n is
larger than the string or falls inside a multi-byte character. -/
def splitAtByte : Nat → List Char → Option (List Char × List Char)
  | 0, s => some ([], s)
  | _ + 1, [] => none
  | n + 1, c :: rest =>
    if c.utf8Size ≤ n + 1 then
      (splitAtByte (n + 1 - c.utf8Size) rest).map (fun p => (c :: p.1, p.2))
    else none

/-- utils.rs extract_version_from_filename.  The stem is the filename with
every trailing ".cql" removed; the candidate version part is the first two
underscore-separated segments rejoined; the code then checks a byte length,
splits at byte 8 (which can panic, modelled as Except.error ()), and requires
8 ASCII digits, an underscore, and only ASCII digits after it.  On acceptance
the whole stem is returned. -/
def extract_version_from_filename (filename : List Char) : Except Unit (Option (List Char)) :=
  let stem := trim_end_matches_cql filename
  let version_part := List.intercalate ['_'] ((splitChar '_' stem).take 2)
  if 9 ≤ utf8Len version_part then
    match splitAtByte 8 version_part with
    | none => .error ()
    | some (date_part, seq_part) =>
      if date_part.all Char.isDigit then
        match seq_part with
        | c :: seq_digits =>
          if c = '_' then
            if seq_digits.all Char.isDigit then .ok (some stem) else .ok none
          else .ok none
        | [] => .ok none
      else .ok none
  else .ok none

/-- utils.rs extract_description_from_filename: drop the first two
underscore-separated segments of the stem, rejoin with underscores and turn
every underscore into a space; with fewer than three segments the stem itself
is returned. -/
def extract_description_from_filename (filename : List Char) : List Char :=
  let stem := trim_end_matches_cql filename
  let parts := splitChar '_' stem
  if 3 ≤ parts.length then
    (List.intercalate ['_'] (parts.drop 2)).map (fun c => if c = '_' then ' ' else c)
  else stem

/-- Spec wording, section 4.1, for the filename pattern accepted by
deriveVersion, with the digit run after the underscore allowed to be empty
(zero or more digits): the stem begins with exactly 8 ASCII digits, then an
underscore, then a digit run, then an underscore or the end of the stem.
The helper underscoreOrEnd checks the trailing alternative. -/
def underscoreOrEnd (l : List Char) : Bool :=
  match l with
  | [] => true
  | c :: _ => c = '_'

/-- The stem pattern of the spec with the digit run allowed to be empty; see
underscoreOrEnd above. -/
def specVersionPattern (s : List Char) : Bool :=
  decide ((s.take 8).length = 8) && (s.take 8).all Char.isDigit &&
    (match s.drop 8 with
     | [] => false
     | c :: r2 => c = '_' && underscoreOrEnd (r2.dropWhile Char.isDigit))

/-- Spec wording, section 4.1, as literally claimed: same as
specVersionPattern but the digit run after the underscore must contain at
least one digit. -/
def claimedVersionPattern (s : List Char) : Bool :=
  decide ((s.take 8).length = 8) && (s.take 8).all Char.isDigit &&
    (match s.drop 8 with
     | [] => false
     | c :: r2 =>
       c = '_' && !(r2.takeWhile Char.isDigit).isEmpty &&
         underscoreOrEnd (r2.dropWhile Char.isDigit))

/-- The byte-boundary panic condition of extract_version_from_filename: the
rejoined first two segments are at least 9 bytes long but byte 8 is not a
character boundary. -/
def extract_version_panics (filename : List Char) : Bool :=
  let version_part := List.intercalate ['_'] ((splitChar '_' (trim_end_matches_cql filename)).take 2)
  (9 ≤ utf8Len version_part : Bool) && (splitAtByte 8 version_part).isNone

/-- The two sections of a migration file, utils.rs parse_migration_content. -/
inductive Sec where
  | up
  | down
deriving DecidableEq

/-- The line scanner of parse_migration_content: walk the lines with a current
section tag; marker lines switch the tag and are consumed; blank and comment
lines before any marker are discarded; any other line before a marker starts
an implicit UP section; remaining lines are appended verbatim to the active
section. -/
def scanLines : Option Sec → List (List Char) → List (List Char) × List (List Char)
  | _, [] => ([], [])
  | sec, line :: rest =>
    let trimmed := rustTrim line
    if ("-- UP".data).isPrefixOf trimmed || ("-- +migrate Up".data).isPrefixOf trimmed then
      scanLines (some .up) rest
    else if ("-- DOWN".data).isPrefixOf trimmed || ("-- +migrate Down".data).isPrefixOf trimmed then
      scanLines (some .down) rest
    else if sec.isNone && (trimmed.isEmpty || ("--".data).isPrefixOf trimmed) then
      scanLines sec rest
    else
      let sec2 := match sec with
        | none => some Sec.up
        | some s => some s
      match sec2, scanLines sec2 rest with
      | some .up, (u, d) => (line :: u, d)
      | some .down, (u, d) => (u, line :: d)
      | none, acc => acc

/-- utils.rs parse_migration_content: scan the lines into the two sections,
join each section with newlines and trim it; empty UP content is a format
error; an empty DOWN line list yields none for the DOWN component. -/
def parse_migration_content (content : List Char) :
    Except (List Char) (List Char × Option (List Char)) :=
  let secs := scanLines none (rustLines content)
  let up_content := rustTrim (List.intercalate ['\n'] secs.1)
  let down_content :=
    if secs.2.isEmpty then none
    else some (rustTrim (List.intercalate ['\n'] secs.2))
  if up_content.isEmpty then
    .error ("Migration must contain at least UP section with CQL statements".data)
  else .ok (up_content, down_content)

/-- migration.rs split_cql_statements: split a section on the semicolon, trim
each segment, and discard the empty ones. -/
def split_cql_statements (content : List Char) : List (List Char) :=
  (((splitChar ';' content).map rustTrim).filter (fun s => !s.isEmpty))

/-- The decimal digit character for n mod 10. -/
def digitChar (n : Nat) : Char :=
  Char.ofNat (48 + n % 10)

/-- Two-digit zero-padded decimal rendering, as chrono produces for the month,
day, hour, minute and second fields of in-range timestamps. -/
def pad2 (n : Nat) : List Char :=
  [digitChar (n / 10), digitChar n]

/-- Four-digit zero-padded decimal rendering, as chrono produces for the year
of in-range (0..=9999) timestamps. -/
def pad4 (n : Nat) : List Char :=
  [digitChar (n / 1000), digitChar (n / 100), digitChar (n / 10), digitChar n]

/-- A wall-clock instant broken into the fields the version format uses. -/
structure Timestamp where
  year : Nat
  month : Nat
  day : Nat
  hour : Nat
  minute : Nat
  second : Nat

/-- utils.rs generate_migration_version: the current instant formatted
YYYYMMDD_HHMMSS.  The formatter is modelled for in-range field values (year
below 10000, other fields below 100); the theorems about it carry those
bounds. -/
def generate_migration_version (t : Timestamp) : List Char :=
  pad4 t.year ++ pad2 t.month ++ pad2 t.day ++ '_' ::
    (pad2 t.hour ++ pad2 t.minute ++ pad2 t.second)

/-- utils.rs create_migration_filename, parametrised by the Unicode tables the
code consults: alnum is char::is_alphanumeric and lc is str::to_lowercase.
Every non-alphanumeric character of the description becomes an underscore, the
result is lowercased, and version, description and the fixed extension are
joined. -/
def create_migration_filename (alnum : Char → Bool) (lc : List Char → List Char)
    (t : Timestamp) (description : List Char) : List Char :=
  generate_migration_version t ++ '_' ::
    (lc (description.map (fun c => if alnum c then c else '_')) ++ ['.', 'c', 'q', 'l'])

/-- lib.rs MigrationRecord: one row of the ledger table.  applied_at is the
stored milliseconds-since-epoch integer. -/
structure MigrationRecord where
  version : List Char
  applied_at : Int
  checksum : List Char
  description : List Char
deriving DecidableEq

/-- lib.rs MigrationFile: a migration file reconstructed from disk. -/
structure MigrationFile where
  version : List Char
  description : List Char
  file_path : List Char
  content : List Char
  checksum : List Char
deriving DecidableEq

/-- The schema-level DDL operations the engine issues against the database. -/
inductive DdlOp where
  | createKeyspace (keyspace : List Char)
  | useKeyspace (keyspace : List Char)
  | createTable (table : List Char)
  | dropTable (table : List Char)
deriving DecidableEq

/-- The observable database state the engine mutates: the rows of the ledger
table (in the ascending-version order the SELECT with ORDER BY returns them),
the migration statements that have been sent to the session, and the DDL
operations that have been sent.  Where a theorem depends on the ledger being
version-ascending, it says so explicitly. -/
structure EngineState where
  ledger : List MigrationRecord
  execLog : List (List Char)
  ddlLog : List DdlOp
deriving DecidableEq

/-- lib.rs MigrationError, restricted to the constructors the modelled code
produces.  QueryError carries the statement whose execution failed. -/
inductive MigrationError where
  | QueryError (statement : List Char)
  | ConfigError (detail : List Char)
  | IntegrityError (detail : List Char)
  | MigrationNotFound (version : List Char)
  | ChecksumMismatch (version expected actual : List Char)
  | RollbackError (version reason : List Char)
  | AlreadyApplied (version : List Char)
  | InvalidFormat (detail : List Char)
deriving DecidableEq

/-- config.rs DatabaseConfig. -/
structure DatabaseConfig where
  hosts : List (List Char)
  keyspace : List Char
  username : List Char
  password : List Char
  port : Nat
  datacenter : List Char
deriving DecidableEq

/-- config.rs MigrationsConfig. -/
structure MigrationsConfig where
  directory : List Char
  table_name : List Char
deriving DecidableEq

/-- config.rs BehaviorConfig. -/
structure BehaviorConfig where
  auto_create_keyspace : Bool
  verify_checksums : Bool
  allow_destructive : Bool
  timeout_seconds : Nat
deriving DecidableEq

/-- config.rs Config. -/
structure Config where
  database : DatabaseConfig
  migrations : MigrationsConfig
  behavior : BehaviorConfig
deriving DecidableEq

/-- migration.rs get_applied_migrations: the rows of the ledger table as the
session returns them (the ledger field of the state). -/
def get_applied_migrations (st : EngineState) : List MigrationRecord :=
  st.ledger

/-- migration.rs is_migration_applied: whether a row with this version exists
in the ledger table. -/
def is_migration_applied (st : EngineState) (version : List Char) : Bool :=
  st.ledger.any (fun r => r.version == version)

/-- The effect on the ledger table of the INSERT in record_migration_applied:
version is the primary key, so an INSERT overwrites an existing row with the
same version and otherwise adds a new row. -/
def ledgerInsert (ledger : List MigrationRecord) (r : MigrationRecord) :
    List MigrationRecord :=
  if ledger.any (fun x => x.version == r.version) then
    ledger.map (fun x => if x.version == r.version then r else x)
  else ledger ++ [r]

/-- migration.rs record_migration_applied: insert a ledger row for the
migration with the execution instant and the file checksum. -/
def record_migration_applied (now : Int) (st : EngineState) (m : MigrationFile) :
    EngineState :=
  { st with ledger := ledgerInsert st.ledger ⟨m.version, now, m.checksum, m.description⟩ }

/-- The ledger rows left by the DELETE of remove_migration_record. -/
def remove_migration_record (ledger : List MigrationRecord) (version : List Char) :
    List MigrationRecord :=
  ledger.filter (fun r => !(r.version == version))

/-- The statement-execution loops of apply_migration and rollback_migration:
send each statement whose trimmed form is nonempty to the session; the oracle
decides whether the session accepts it; stop at the first failing statement
and report it.  Every sent statement, including a failing one, is logged. -/
def execStatements (oracle : List Char → Bool) (st : EngineState) :
    List (List Char) → EngineState × Option (List Char)
  | [] => (st, none)
  | s :: rest =>
    if (rustTrim s).isEmpty then execStatements oracle st rest
    else if oracle s then
      execStatements oracle { st with execLog := st.execLog ++ [s] } rest
    else ({ st with execLog := st.execLog ++ [s] }, some s)

/-- migration.rs apply_migration: refuse an already applied version, parse the
content, execute the UP statements, and record the migration; the first
failure stops the run with the corresponding error, leaving the statements
already sent in the log. -/
def apply_migration (oracle : List Char → Bool) (now : Int) (st : EngineState)
    (m : MigrationFile) : EngineState × Option MigrationError :=
  if is_migration_applied st m.version then
    (st, some (.AlreadyApplied m.version))
  else
    match parse_migration_content m.content with
    | .error e => (st, some (.InvalidFormat e))
    | .ok (up_content, _down_content) =>
      match execStatements oracle st (split_cql_statements up_content) with
      | (st2, some s) => (st2, some (.QueryError s))
      | (st2, none) => (record_migration_applied now st2 m, none)

/-- migration.rs rollback_migration: require the version to be applied and its
file to be present, parse, require a DOWN section, execute the DOWN
statements, and delete the ledger row. -/
def rollback_migration (oracle : List Char → Bool) (st : EngineState)
    (files : List MigrationFile) (version : List Char) :
    EngineState × Option MigrationError :=
  if !is_migration_applied st version then
    (st, some (.MigrationNotFound version))
  else
    match files.find? (fun f => f.version == version) with
    | none => (st, some (.MigrationNotFound version))
    | some migration_file =>
      match parse_migration_content migration_file.content with
      | .error e => (st, some (.InvalidFormat e))
      | .ok (_up_content, none) =>
        (st, some (.RollbackError version ("No DOWN section found in migration".data)))
      | .ok (_up_content, some down_content) =>
        match execStatements oracle st (split_cql_statements down_content) with
        | (st2, some s) => (st2, some (.QueryError s))
        | (st2, none) =>
          ({ st2 with ledger := remove_migration_record st2.ledger version }, none)

/-- The outcome data the up and down commands report: the count applied or
rolled back so far, their versions in order, and on a failure the failing
version and the error. -/
structure BatchReport where
  count : Nat
  versions : List (List Char)
  failed : Option (List Char)
  error : Option MigrationError
deriving DecidableEq

/-- The batch loop of commands/up.rs UpCommand::execute: apply each candidate
in order, counting successes, and stop at the first failure reporting the
partial progress. -/
def up_apply_loop (oracle : List Char → Bool) (now : Int) (st : EngineState) :
    List MigrationFile → Nat → List (List Char) → EngineState × BatchReport
  | [], cnt, vs => (st, ⟨cnt, vs, none, none⟩)
  | m :: rest, cnt, vs =>
    match apply_migration oracle now st m with
    | (st2, none) => up_apply_loop oracle now st2 rest (cnt + 1) (vs ++ [m.version])
    | (st2, some e) => (st2, ⟨cnt, vs, some m.version, some e⟩)

/-- Whether Path::extension() of the entry name equals "cql": the part after
the last dot of the name, where a name whose only dot is a leading one (a
hidden file) has no extension. -/
def extensionIsCql (name : List Char) : Bool :=
  match splitChar '.' name with
  | [] => false
  | [_] => false
  | p0 :: rest =>
    if p0.isEmpty && rest.length = 1 then false
    else rest.getLastD [] == ['c', 'q', 'l']

/-- migration.rs get_migration_files: walk the directory entries in filename
order, keep the .cql files, derive each version (skipping files whose name
does not match, and propagating the byte-boundary panic of the extractor),
and build the MigrationFile records with content checksums.  The checksum
function (SHA-256 rendered as hex) is an opaque parameter.  A directory entry
is a (filename, content) pair. -/
def get_migration_files (hash : List Char → List Char) :
    List (List Char × List Char) → Except Unit (List MigrationFile)
  | [] => .ok []
  | (name, content) :: rest =>
    if extensionIsCql name then
      match extract_version_from_filename name with
      | .error e => .error e
      | .ok none => get_migration_files hash rest
      | .ok (some version) =>
        (get_migration_files hash rest).map
          (fun fs =>
            ⟨version, extract_description_from_filename name, name, content,
              hash content⟩ :: fs)
    else get_migration_files hash rest

/-- migration.rs get_pending_migrations: the scanned files whose version is
not among the applied versions, in scan order. -/
def get_pending_migrations (st : EngineState) (files : List MigrationFile) :
    List MigrationFile :=
  let applied_versions := (get_applied_migrations st).map (fun r => r.version)
  files.filter (fun f => !applied_versions.contains f.version)

/-- The batch the up command applies: all pending migrations, or the first
count of them when a count is requested. -/
def upBatch (count? : Option Nat) (st : EngineState) (files : List MigrationFile) :
    List MigrationFile :=
  match count? with
  | some c => (get_pending_migrations st files).take c
  | none => get_pending_migrations st files

/-- commands/up.rs UpCommand::execute without dry-run: run the batch loop on
the pending candidates. -/
def up_execute (oracle : List Char → Bool) (now : Int) (count? : Option Nat)
    (st : EngineState) (files : List MigrationFile) : EngineState × BatchReport :=
  up_apply_loop oracle now st (upBatch count? st files) 0 []

/-- The batch loop of commands/down.rs DownCommand::execute: roll back each
candidate; a RollbackError (missing DOWN section) is rescued in force mode by
deleting the ledger row without executing statements; any other error stops
the batch with the partial progress.  The row deletion itself is modelled as
the infallible table update it performs. -/
def down_loop (oracle : List Char → Bool) (force : Bool) (st : EngineState)
    (files : List MigrationFile) :
    List MigrationRecord → Nat → List (List Char) → EngineState × BatchReport
  | [], cnt, vs => (st, ⟨cnt, vs, none, none⟩)
  | r :: rest, cnt, vs =>
    match rollback_migration oracle st files r.version with
    | (st2, none) => down_loop oracle force st2 files rest (cnt + 1) (vs ++ [r.version])
    | (st2, some (MigrationError.RollbackError v reason)) =>
      if force then
        down_loop oracle force
          { st2 with ledger := remove_migration_record st2.ledger v } files rest
          (cnt + 1) (vs ++ [r.version])
      else (st2, ⟨cnt, vs, some v, some (.RollbackError v reason)⟩)
    | (st2, some e) => (st2, ⟨cnt, vs, some r.version, some e⟩)

/-- commands/down.rs DownCommand::execute without dry-run: take the most
recent count applied migrations (the applied list reversed) and run the
rollback loop. -/
def down_execute (oracle : List Char → Bool) (force : Bool) (count : Nat)
    (st : EngineState) (files : List MigrationFile) : EngineState × BatchReport :=
  down_loop oracle force st files ((get_applied_migrations st).reverse.take count) 0 []

/-- The version-keyed file map of verify_migrations: collecting the files into
a HashMap keyed by version keeps the last file with a given version. -/
def file_map_lookup (files : List MigrationFile) (version : List Char) :
    Option MigrationFile :=
  files.foldl (fun acc f => if f.version == version then some f else acc) none

/-- migration.rs verify_migrations: for every applied row, in ledger order,
report a checksum mismatch when the matching file differs and a missing
migration when no file matches. -/
def verify_migrations (st : EngineState) (files : List MigrationFile) :
    List MigrationError :=
  (get_applied_migrations st).filterMap (fun r =>
    match file_map_lookup files r.version with
    | some f =>
      if !(f.checksum == r.checksum) then
        some (.ChecksumMismatch r.version r.checksum f.checksum)
      else none
    | none => some (.MigrationNotFound r.version))

/-- migration.rs initialize_schema: create the keyspace when auto-create is
on, select it, and create the ledger table. -/
def initialize_schema (cfg : Config) (st : EngineState) : EngineState :=
  let st1 :=
    if cfg.behavior.auto_create_keyspace then
      { st with ddlLog := st.ddlLog ++ [DdlOp.createKeyspace cfg.database.keyspace] }
    else st
  let st2 := { st1 with ddlLog := st1.ddlLog ++ [DdlOp.useKeyspace cfg.database.keyspace] }
  { st2 with ddlLog := st2.ddlLog ++ [DdlOp.createTable cfg.migrations.table_name] }

/-- migration.rs reset_migrations: refuse with a configuration error when
destructive operations are disabled; otherwise drop the ledger table (losing
every row) and recreate the schema. -/
def reset_migrations (cfg : Config) (st : EngineState) :
    EngineState × Option MigrationError :=
  if !cfg.behavior.allow_destructive then
    (st, some (.ConfigError ("Destructive operations are disabled in configuration".data)))
  else
    let st1 :=
      { st with
        ledger := [],
        ddlLog := st.ddlLog ++ [DdlOp.dropTable cfg.migrations.table_name] }
    (initialize_schema cfg st1, none)

/-- The version a verification issue is about. -/
def issueVersion : MigrationError → List Char
  | .MigrationNotFound v => v
  | .ChecksumMismatch v _ _ => v
  | .AlreadyApplied v => v
  | .RollbackError v _ => v
  | .QueryError _ => []
  | .ConfigError _ => []
  | .IntegrityError _ => []
  | .InvalidFormat _ => []

/-- C8: when allow_destructive is off, reset_migrations returns a
configuration error and leaves the state (ledger rows, statement log, DDL
log) untouched; when it is on, it drops the ledger table and recreates the
schema (keyspace creation when auto-create is on, keyspace selection, table
creation), leaving the ledger empty. -/
theorem reset_migrations_gated (cfg : Config) (st : EngineState) :
    (cfg.behavior.allow_destructive = false →
      reset_migrations cfg st =
        (st, some (MigrationError.ConfigError
          ("Destructive operations are disabled in configuration".data)))) ∧
    (cfg.behavior.allow_destructive = true →
      reset_migrations cfg st =
        ({ ledger := [],
           execLog := st.execLog,
           ddlLog := st.ddlLog ++ [DdlOp.dropTable cfg.migrations.table_name] ++
             (if cfg.behavior.auto_create_keyspace then
               [DdlOp.createKeyspace cfg.database.keyspace]
             else []) ++
             [DdlOp.useKeyspace cfg.database.keyspace,
              DdlOp.createTable cfg.migrations.table_name] }, none)) := by
  constructor
  · intro h
    simp [reset_migrations, h]
  · intro h
    by_cases hk : cfg.behavior.auto_create_keyspace <;>
      simp [reset_migrations, h, initialize_schema, hk]

/-- A configuration with destructive operations disabled, for witnesses. -/
def cfgGateOff : Config :=
  ⟨⟨[], ['k', 's'], [], [], 9042, []⟩, ⟨['m'], ['t', 'b', 'l']⟩, ⟨true, true, false, 30⟩⟩

/-- The same configuration with destructive operations enabled. -/
def cfgGateOn : Config :=
  ⟨⟨[], ['k', 's'], [], [], 9042, []⟩, ⟨['m'], ['t', 'b', 'l']⟩, ⟨true, true, true, 30⟩⟩

/-- A small engine state with one applied row, for witnesses. -/
def stOneRow : EngineState :=
  ⟨[⟨"20250101_1".data, 0, ['a'], []⟩], [], []⟩

/-- Witness for reset_migrations_gated at concrete configurations. -/
theorem reset_migrations_gated_witness :
    reset_migrations cfgGateOff stOneRow =
      (stOneRow, some (MigrationError.ConfigError
        ("Destructive operations are disabled in configuration".data))) ∧
    reset_migrations cfgGateOn stOneRow =
      ({ ledger := [],
         execLog := stOneRow.execLog,
         ddlLog := stOneRow.ddlLog ++ [DdlOp.dropTable cfgGateOn.migrations.table_name] ++
           (if cfgGateOn.behavior.auto_create_keyspace then
             [DdlOp.createKeyspace cfgGateOn.database.keyspace]
           else []) ++
           [DdlOp.useKeyspace cfgGateOn.database.keyspace,
            DdlOp.createTable cfgGateOn.migrations.table_name] }, none) :=
  ⟨(reset_migrations_gated cfgGateOff stOneRow).1 rfl,
   (reset_migrations_gated cfgGateOn stOneRow).2 rfl⟩

/-- C7: the pending list computed from a successful directory scan is the
scanned file sequence with exactly the files whose version is applied
removed: it is a sublist of the scan result (scan order preserved), and a
file belongs to it exactly when it was scanned and its version is not among
the ledger versions. -/
theorem pending_is_scan_minus_applied (hash : List Char → List Char)
    (dir : List (List Char × List Char)) (st : EngineState)
    (files : List MigrationFile)
    (hscan : get_migration_files hash dir = .ok files) :
    (get_pending_migrations st files).Sublist files ∧
    ∀ f, f ∈ get_pending_migrations st files ↔
      f ∈ files ∧ f.version ∉ st.ledger.map (fun r => r.version) := by
  refine ⟨List.filter_sublist files, fun f => ?_⟩
  unfold get_pending_migrations get_applied_migrations
  rw [List.mem_filter]
  simp [List.elem_iff]

/-- Witness for pending_is_scan_minus_applied: scanning dirW yields the two
valid files and the pending computation against a ledger holding the first
version keeps exactly the second, in scan order. -/
theorem pending_is_scan_minus_applied_witness :
    (get_pending_migrations
      ⟨[⟨"20250101_1_a".data, 0, ['h'], []⟩], [], []⟩
      [⟨"20250101_1_a".data, ['a'], "20250101_1_a.cql".data, "CREATE A;".data, ['h']⟩,
       ⟨"20250102_2_b".data, ['b'], "20250102_2_b.cql".data, "CREATE B;".data, ['h']⟩]).Sublist
      [⟨"20250101_1_a".data, ['a'], "20250101_1_a.cql".data, "CREATE A;".data, ['h']⟩,
       ⟨"20250102_2_b".data, ['b'], "20250102_2_b.cql".data, "CREATE B;".data, ['h']⟩] :=
  (pending_is_scan_minus_applied (fun _ => ['h'])
    [("20250101_1_a.cql".data, "CREATE A;".data),
     ("20250102_2_b.cql".data, "CREATE B;".data),
     ("notes.txt".data, "hello".data),
     ("invalid.cql".data, "CREATE C;".data)]
    ⟨[⟨"20250101_1_a".data, 0, ['h'], []⟩], [], []⟩
    _ (by rfl)).1

theorem dropWhile_head?_not {α : Type} (p : α → Bool) (l : List α) (c : α)
    (h : (l.dropWhile p).head? = some c) : p c = false := by
  induction l with
  | nil => simp [List.dropWhile] at h
  | cons a r ih =>
    by_cases hp : p a
    · rw [List.dropWhile_cons, if_pos hp] at h
      exact ih h
    · rw [List.dropWhile_cons, if_neg hp] at h
      simp only [List.head?_cons, Option.some.injEq] at h
      simpa [← h] using hp

theorem dropWhile_eq_self_of_head?_not {α : Type} (p : α → Bool) (l : List α)
    (h : ∀ c, l.head? = some c → p c = false) : l.dropWhile p = l := by
  cases l with
  | nil => rfl
  | cons a r =>
    have := h a rfl
    simp [List.dropWhile_cons, this]

theorem rustTrim_idem (s : List Char) : rustTrim (rustTrim s) = rustTrim s := by
  unfold rustTrim
  set p := isRustWhitespace with hp
  set u := s.dropWhile p with hu
  set w := u.reverse.dropWhile p with hw
  have hw_head : ∀ c, w.head? = some c → p c = false := fun c hc =>
    dropWhile_head?_not p u.reverse c (by rw [← hw]; exact hc)
  have hwrev_head : ∀ c, w.reverse.head? = some c → p c = false := by
    intro c hc
    have hpre : w.reverse <+: u := by
      have h1 := (List.dropWhile_suffix (l := u.reverse) p).reverse
      rwa [List.reverse_reverse, ← hw] at h1
    obtain ⟨t2, ht⟩ := hpre
    have hcu : u.head? = some c := by
      rw [← ht, List.head?_append, hc]
      rfl
    exact dropWhile_head?_not p s c (by rw [← hu]; exact hcu)
  rw [dropWhile_eq_self_of_head?_not p w.reverse hwrev_head, List.reverse_reverse,
    dropWhile_eq_self_of_head?_not p w hw_head]

theorem mem_rustTrim {s : List Char} {c : Char} (h : c ∈ rustTrim s) : c ∈ s := by
  unfold rustTrim at h
  rw [List.mem_reverse] at h
  have h2 := (List.dropWhile_sublist (l := (s.dropWhile isRustWhitespace).reverse)
    isRustWhitespace).subset h
  rw [List.mem_reverse] at h2
  exact (List.dropWhile_sublist isRustWhitespace).subset h2

theorem splitChar_ne_nil (sep : Char) (s : List Char) : splitChar sep s ≠ [] := by
  cases s with
  | nil => simp [splitChar]
  | cons c rest =>
    simp only [splitChar]
    split <;> simp

theorem mem_splitChar_not_sep (sep : Char) (s : List Char) :
    ∀ g ∈ splitChar sep s, sep ∉ g := by
  induction s with
  | nil =>
    intro g hg
    simp [splitChar] at hg
    simp [hg]
  | cons c rest ih =>
    intro g hg
    simp only [splitChar] at hg
    by_cases hc : c = sep
    · rw [if_pos hc] at hg
      rcases List.mem_cons.mp hg with hg | hg
      · simp [hg]
      · exact ih g hg
    · rw [if_neg hc] at hg
      cases hsp : splitChar sep rest with
      | nil => exact absurd hsp (splitChar_ne_nil sep rest)
      | cons g0 gs =>
        rw [hsp] at hg
        rcases List.mem_cons.mp hg with hg | hg
        · subst hg
          intro hmem
          rcases List.mem_cons.mp hmem with hmem | hmem
          · exact hc hmem.symm
          · exact ih g0 (by rw [hsp]; exact List.mem_cons_self g0 gs) hmem
        · exact ih g (by rw [hsp]; exact List.mem_cons_of_mem g0 hg)

theorem splitChar_no_sep {sep : Char} {x : List Char} (h : sep ∉ x) :
    splitChar sep x = [x] := by
  induction x with
  | nil => rfl
  | cons c r ih =>
    simp only [List.mem_cons, not_or] at h
    obtain ⟨h1, h2⟩ := h
    simp only [splitChar, ih h2]
    rw [if_neg (fun hh => h1 hh.symm)]
    rfl

theorem splitChar_append_sep {sep : Char} {a : List Char} (t : List Char) (h : sep ∉ a) :
    splitChar sep (a ++ sep :: t) = a :: splitChar sep t := by
  induction a with
  | nil => simp [splitChar]
  | cons c a2 ih =>
    simp only [List.mem_cons, not_or] at h
    obtain ⟨h1, h2⟩ := h
    have ih2 := ih h2
    show (let r := splitChar sep (a2 ++ sep :: t);
      if c = sep then [] :: r else (c :: r.headD []) :: r.tail) = (c :: a2) :: splitChar sep t
    rw [ih2, if_neg (fun hh => h1 hh.symm)]
    rfl

theorem splitChar_headD (sep : Char) (s : List Char) :
    (splitChar sep s).headD [] = s.takeWhile (fun c => c != sep) := by
  induction s with
  | nil => rfl
  | cons c r ih =>
    by_cases hc : c = sep
    · simp [splitChar, hc]
    · show (let r2 := splitChar sep r;
        if c = sep then [] :: r2 else (c :: r2.headD []) :: r2.tail).headD [] =
          List.takeWhile (fun x => x != sep) (c :: r)
      rw [if_neg hc]
      show c :: (splitChar sep r).headD [] = List.takeWhile (fun x => x != sep) (c :: r)
      rw [List.takeWhile_cons, if_pos (by simp [hc]), ih]

theorem intercalate_pair (sep : List Char) (x : List Char) (y : List Char)
    (ys : List (List Char)) :
    List.intercalate sep (x :: y :: ys) = x ++ sep ++ List.intercalate sep (y :: ys) := by
  simp [List.intercalate, List.intersperse_cons_cons]

theorem splitChar_intercalate {sep : Char} :
    ∀ gs : List (List Char), gs ≠ [] → (∀ g ∈ gs, sep ∉ g) →
      splitChar sep (List.intercalate [sep] gs) = gs
  | [], h, _ => absurd rfl h
  | [x], _, hg => by
    simp only [List.intercalate, List.intersperse]
    simpa using splitChar_no_sep (hg x (List.mem_singleton_self x))
  | x :: y :: ys, _, hg => by
    rw [intercalate_pair]
    have hx : sep ∉ x := hg x (List.mem_cons_self x (y :: ys))
    have h2 : splitChar sep (List.intercalate [sep] (y :: ys)) = y :: ys :=
      splitChar_intercalate (y :: ys) (List.cons_ne_nil y ys)
        (fun g hgm => hg g (List.mem_cons_of_mem x hgm))
    calc splitChar sep (x ++ [sep] ++ List.intercalate [sep] (y :: ys))
        = splitChar sep (x ++ sep :: List.intercalate [sep] (y :: ys)) := by
          rw [List.append_assoc]
          rfl
      _ = x :: splitChar sep (List.intercalate [sep] (y :: ys)) :=
          splitChar_append_sep _ hx
      _ = x :: y :: ys := by rw [h2]

theorem mem_split_cql {content s : List Char} (h : s ∈ split_cql_statements content) :
    (';' ∉ s) ∧ rustTrim s = s ∧ s.isEmpty = false := by
  unfold split_cql_statements at h
  rw [List.mem_filter] at h
  obtain ⟨hmem, hne⟩ := h
  rw [List.mem_map] at hmem
  obtain ⟨g, hg, hs⟩ := hmem
  subst hs
  refine ⟨fun hmem2 => ?_, rustTrim_idem g, by simpa using hne⟩
  exact mem_splitChar_not_sep ';' content g hg (mem_rustTrim hmem2)

/-- C9: statement splitting is exactly the nonempty trimmed segments of the
semicolon split, in order (this is its definition, stated explicitly), and
re-joining the statements with the semicolon and re-splitting reproduces the
same statement sequence. -/
theorem split_cql_statements_round_trip (content : List Char) :
    split_cql_statements content =
      ((splitChar ';' content).map rustTrim).filter (fun s => !s.isEmpty) ∧
    split_cql_statements (List.intercalate [';'] (split_cql_statements content)) =
      split_cql_statements content := by
  refine ⟨rfl, ?_⟩
  cases hxs : split_cql_statements content with
  | nil => rfl
  | cons x xs =>
    have hprops : ∀ s ∈ x :: xs, (';' ∉ s) ∧ rustTrim s = s ∧ s.isEmpty = false :=
      fun s hs => mem_split_cql (hxs ▸ hs)
    unfold split_cql_statements
    rw [splitChar_intercalate (x :: xs) (List.cons_ne_nil x xs)
      (fun g hg => (hprops g hg).1)]
    rw [List.map_congr_left (fun s hs => (hprops s hs).2.1), List.map_id']
    rw [List.filter_eq_self.mpr (fun s hs => by simp [(hprops s hs).2.2])]

/-- C5 (amended): parse_migration_content returns a format error exactly when
the UP section lines, joined and trimmed, are empty; and the DOWN component of
a successful parse is none exactly when no lines at all were collected into
the DOWN section (a nonempty DOWN line list whose join trims to nothing
yields some of the empty string, not none). -/
theorem parse_error_and_down_none_conditions (content : List Char) :
    ((∃ e, parse_migration_content content = .error e) ↔
      rustTrim (List.intercalate ['\n'] (scanLines none (rustLines content)).1) = []) ∧
    (∀ up d, parse_migration_content content = .ok (up, d) →
      (d = none ↔ (scanLines none (rustLines content)).2 = [])) := by
  unfold parse_migration_content
  by_cases h : (rustTrim (List.intercalate ['\n'] (scanLines none (rustLines content)).1)).isEmpty
  · constructor
    · simp [h, List.isEmpty_iff.mp h]
    · intro up d hok
      rw [if_pos h] at hok
      exact absurd hok (by simp)
  · constructor
    · constructor
      · rintro ⟨e, he⟩
        rw [if_neg h] at he
        exact absurd he (by simp)
      · intro hnil
        exact absurd (List.isEmpty_iff.mpr hnil) (by simpa using h)
    · intro up d hok
      rw [if_neg h] at hok
      simp only [Except.ok.injEq, Prod.mk.injEq] at hok
      obtain ⟨-, hd⟩ := hok
      by_cases h2 : (scanLines none (rustLines content)).2.isEmpty
      · rw [if_pos h2] at hd
        simp [← hd, List.isEmpty_iff.mp h2]
      · rw [if_neg h2] at hd
        constructor
        · intro hdn
          rw [hdn] at hd
          exact absurd hd (by simp)
        · intro hnil
          exact absurd (List.isEmpty_iff.mpr hnil) (by simpa using h2)

/-- Witness for parse_error_and_down_none_conditions: for a file with an UP
statement and a DOWN statement the DOWN component is some, matching the
nonempty DOWN line list. -/
theorem parse_error_and_down_none_conditions_witness :
    (some ("DROP A;".data) = none ↔
      (scanLines none (rustLines ("CREATE A;\n-- DOWN\nDROP A;".data))).2 = []) :=
  (parse_error_and_down_none_conditions ("CREATE A;\n-- DOWN\nDROP A;".data)).2
    ("CREATE A;".data) (some ("DROP A;".data)) (by rfl)

/-- C5 counterexample: a migration whose DOWN section consists of one
whitespace-only line has empty DOWN content after joining and trimming, yet
parse returns some of the empty string for the DOWN component instead of
none, contradicting the claim that empty DOWN content never yields a
non-none empty value. -/
theorem parse_down_some_empty_counterexample :
    parse_migration_content ("CREATE X;\n-- DOWN\n ".data) =
      .ok ("CREATE X;".data, some []) ∧
    (some ([] : List Char)).isSome = true :=
  ⟨rfl, rfl⟩

/-- The issue verify_migrations emits for one applied row. -/
def verifyIssue (files : List MigrationFile) (r : MigrationRecord) :
    Option MigrationError :=
  match file_map_lookup files r.version with
  | some f =>
    if !(f.checksum == r.checksum) then
      some (.ChecksumMismatch r.version r.checksum f.checksum)
    else none
  | none => some (.MigrationNotFound r.version)

theorem verify_migrations_eq (st : EngineState) (files : List MigrationFile) :
    verify_migrations st files = st.ledger.filterMap (verifyIssue files) := rfl

theorem verifyIssue_some {files : List MigrationFile} {r : MigrationRecord}
    {f : MigrationFile} (hl : file_map_lookup files r.version = some f) :
    verifyIssue files r =
      if !(f.checksum == r.checksum) then
        some (.ChecksumMismatch r.version r.checksum f.checksum)
      else none := by
  unfold verifyIssue
  rw [hl]

theorem verifyIssue_none {files : List MigrationFile} {r : MigrationRecord}
    (hl : file_map_lookup files r.version = none) :
    verifyIssue files r = some (.MigrationNotFound r.version) := by
  unfold verifyIssue
  rw [hl]

theorem verifyIssue_version {files : List MigrationFile} {r : MigrationRecord}
    {e : MigrationError} (h : verifyIssue files r = some e) :
    issueVersion e = r.version := by
  cases hl : file_map_lookup files r.version with
  | some f =>
    rw [verifyIssue_some hl] at h
    by_cases hc : !(f.checksum == r.checksum)
    · rw [if_pos hc] at h
      cases h
      rfl
    · rw [if_neg hc] at h
      exact absurd h (by simp)
  | none =>
    rw [verifyIssue_none hl] at h
    cases h
    rfl

theorem map_nodup_inj {α β : Type} {f : α → β} {l : List α}
    (h : (l.map f).Nodup) {a b : α} (ha : a ∈ l) (hb : b ∈ l)
    (hf : f a = f b) : a = b := by
  induction l with
  | nil => exact absurd ha (List.not_mem_nil a)
  | cons c r ih =>
    rw [List.map_cons, List.nodup_cons] at h
    obtain ⟨hni, hnd⟩ := h
    rcases List.mem_cons.mp ha with ha2 | ha2
    · rcases List.mem_cons.mp hb with hb2 | hb2
      · rw [ha2, hb2]
      · subst ha2
        refine absurd ?_ hni
        rw [hf]
        exact List.mem_map_of_mem f hb2
    · rcases List.mem_cons.mp hb with hb2 | hb2
      · subst hb2
        refine absurd ?_ hni
        rw [← hf]
        exact List.mem_map_of_mem f ha2
      · exact ih hnd ha2 hb2

theorem count_filterMap_one {α β : Type} [DecidableEq α] [DecidableEq β]
    (g : α → Option β) (l : List α) (x : α) (e : β)
    (hnd : l.Nodup) (hx : x ∈ l) (hg : g x = some e)
    (huniq : ∀ y ∈ l, g y = some e → y = x) :
    (l.filterMap g).count e = 1 := by
  induction l with
  | nil => exact absurd hx (List.not_mem_nil x)
  | cons a l2 ih =>
    rw [List.nodup_cons] at hnd
    obtain ⟨hna, hnd2⟩ := hnd
    rcases List.mem_cons.mp hx with hxa | hx2
    · subst hxa
      rw [List.filterMap_cons, hg, List.count_cons_self]
      have hzero : (l2.filterMap g).count e = 0 := by
        rw [List.count_eq_zero]
        intro hmem
        obtain ⟨y, hy, hgy⟩ := List.mem_filterMap.mp hmem
        exact hna ((huniq y (List.mem_cons_of_mem x hy) hgy) ▸ hy)
      rw [hzero]
    · have hax : a ≠ x := fun hax => hna (hax ▸ hx2)
      have ihr := ih hnd2 hx2
        (fun y hy hgy => huniq y (List.mem_cons_of_mem a hy) hgy)
      rw [List.filterMap_cons]
      cases hga : g a with
      | none => exact ihr
      | some e2 =>
        have hne : e2 ≠ e := by
          intro hee
          exact hax (huniq a (List.mem_cons_self a l2) (hee ▸ hga))
        rw [List.count_cons_of_ne (fun hee => hne hee.symm)]
        exact ihr

theorem map_filterMap_sublist {α β γ : Type} (g : α → Option β) (h : β → γ)
    (k : α → γ) (l : List α)
    (hk : ∀ a ∈ l, ∀ e, g a = some e → h e = k a) :
    ((l.filterMap g).map h).Sublist (l.map k) := by
  induction l with
  | nil => simp
  | cons a l2 ih =>
    rw [List.filterMap_cons, List.map_cons]
    have ih2 := ih (fun a2 ha2 e hge => hk a2 (List.mem_cons_of_mem a ha2) e hge)
    cases hga : g a with
    | none => exact ih2.cons (k a)
    | some e =>
      rw [List.map_cons, hk a (List.mem_cons_self a l2) e hga]
      exact ih2.cons₂ (k a)

/-- C6: for every applied ledger row (with the ledger in its ascending
primary-key order), verify emits exactly one checksum mismatch carrying the
ledger checksum as expected and the file checksum as actual when a file with
that version exists and differs, exactly one missing-migration issue when no
file with that version exists, never emits an issue whose version is not in
the ledger, and the issue versions follow the ledger order (ascending, hence
sorted). -/
theorem verify_migrations_spec (st : EngineState) (files : List MigrationFile)
    (hsorted : (st.ledger.map (fun r => r.version)).Sorted (· < ·)) :
    (∀ r ∈ st.ledger, ∀ f, file_map_lookup files r.version = some f →
      f.checksum ≠ r.checksum →
      (verify_migrations st files).count
        (.ChecksumMismatch r.version r.checksum f.checksum) = 1) ∧
    (∀ r ∈ st.ledger, file_map_lookup files r.version = none →
      (verify_migrations st files).count (.MigrationNotFound r.version) = 1) ∧
    (∀ e ∈ verify_migrations st files,
      issueVersion e ∈ st.ledger.map (fun r => r.version)) ∧
    ((verify_migrations st files).map issueVersion).Sublist
      (st.ledger.map (fun r => r.version)) ∧
    ((verify_migrations st files).map issueVersion).Sorted (· < ·) := by
  have hnodupv : (st.ledger.map (fun r => r.version)).Nodup := hsorted.nodup
  have hnodup : st.ledger.Nodup := hnodupv.of_map
  have huniq : ∀ r ∈ st.ledger, ∀ e, verifyIssue files r = some e →
      ∀ y ∈ st.ledger, verifyIssue files y = some e → y = r := by
    intro r hr e he y hy hye
    exact map_nodup_inj hnodupv hy hr
      ((verifyIssue_version hye).symm.trans (verifyIssue_version he))
  have hsub : ((verify_migrations st files).map issueVersion).Sublist
      (st.ledger.map (fun r => r.version)) := by
    rw [verify_migrations_eq]
    exact map_filterMap_sublist (verifyIssue files) issueVersion _ st.ledger
      (fun a _ e hge => verifyIssue_version hge)
  refine ⟨?_, ?_, ?_, hsub, List.Pairwise.sublist hsub hsorted⟩
  · intro r hr f hf hne
    rw [verify_migrations_eq]
    have hg : verifyIssue files r = some (.ChecksumMismatch r.version r.checksum f.checksum) := by
      rw [verifyIssue_some hf, if_pos (by simpa using hne)]
    exact count_filterMap_one (verifyIssue files) st.ledger r _ hnodup hr hg
      (fun y hy hgy => huniq r hr _ hg y hy hgy)
  · intro r hr hf
    rw [verify_migrations_eq]
    have hg : verifyIssue files r = some (.MigrationNotFound r.version) :=
      verifyIssue_none hf
    exact count_filterMap_one (verifyIssue files) st.ledger r _ hnodup hr hg
      (fun y hy hgy => huniq r hr _ hg y hy hgy)
  · intro e he
    rw [verify_migrations_eq] at he
    obtain ⟨r, hr, hgr⟩ := List.mem_filterMap.mp he
    exact (verifyIssue_version hgr) ▸ List.mem_map_of_mem _ hr

/-- A two-row ledger with one matching-but-edited file, for witnesses. -/
def stVer : EngineState :=
  ⟨[⟨"20250101_1_a".data, 0, ['x'], []⟩, ⟨"20250102_2_b".data, 0, ['y'], []⟩], [], []⟩

/-- One scanned file whose checksum differs from the first ledger row. -/
def filesVer : List MigrationFile :=
  [⟨"20250101_1_a".data, [], "20250101_1_a.cql".data, "C;".data, ['z']⟩]

/-- The second ledger row of stVer, whose file is missing. -/
def rVer2 : MigrationRecord := ⟨"20250102_2_b".data, 0, ['y'], []⟩

/-- Witness for verify_migrations_spec: the row with a missing file produces
exactly one missing-migration issue. -/
theorem verify_migrations_spec_witness :
    (verify_migrations stVer filesVer).count
      (.MigrationNotFound ("20250102_2_b".data)) = 1 :=
  (verify_migrations_spec stVer filesVer (by decide)).2.1 rVer2 (by decide) (by rfl)

/-- C2 (amended): when the most recently applied version has no file in the
scanned directory, rollback_migration fails with MigrationNotFound leaving
the state untouched, and the down command, with or without force mode, rolls
back nothing: the ledger keeps the record, no statement is executed, and the
failure names the version with MigrationNotFound.  Force mode does not rescue
a missing file (it only bypasses a missing DOWN section). -/
theorem rollback_missing_file (oracle : List Char → Bool) (force : Bool)
    (st : EngineState) (files : List MigrationFile) (r : MigrationRecord)
    (hlast : st.ledger.getLast? = some r)
    (hnofile : ∀ f ∈ files, f.version ≠ r.version) :
    rollback_migration oracle st files r.version =
      (st, some (.MigrationNotFound r.version)) ∧
    ∀ count, 1 ≤ count →
      down_execute oracle force count st files =
        (st, ⟨0, [], some r.version, some (.MigrationNotFound r.version)⟩) := by
  have happ : is_migration_applied st r.version = true := by
    unfold is_migration_applied
    rw [List.any_eq_true]
    exact ⟨r, List.mem_of_mem_getLast? hlast, by simp⟩
  have hfind : files.find? (fun f => f.version == r.version) = none := by
    rw [List.find?_eq_none]
    intro f hf
    simpa using hnofile f hf
  have h1 : rollback_migration oracle st files r.version =
      (st, some (.MigrationNotFound r.version)) := by
    unfold rollback_migration
    rw [happ, hfind]
    rfl
  refine ⟨h1, ?_⟩
  intro count hcount
  obtain ⟨n, rfl⟩ : ∃ n, count = n + 1 := ⟨count - 1, by omega⟩
  obtain ⟨l2, hrev⟩ : ∃ l2, st.ledger.reverse = r :: l2 := by
    have hh : st.ledger.reverse.head? = some r := by
      rw [List.head?_reverse]
      exact hlast
    cases hc : st.ledger.reverse with
    | nil => rw [hc] at hh; exact absurd hh (by simp)
    | cons a t =>
      rw [hc] at hh
      simp only [List.head?_cons, Option.some.injEq] at hh
      exact ⟨t, by rw [hh]⟩
  unfold down_execute get_applied_migrations
  rw [hrev, List.take_succ_cons]
  simp only [down_loop, h1]

/-- The single applied record of stOneRow. -/
def rOne : MigrationRecord := ⟨"20250101_1".data, 0, ['a'], []⟩

/-- Witness for rollback_missing_file: with force mode on, one applied record
and no files on disk, the down command leaves the state unchanged and reports
MigrationNotFound. -/
theorem rollback_missing_file_witness :
    down_execute (fun _ => true) true 1 stOneRow [] =
      (stOneRow, ⟨0, [], some rOne.version, some (.MigrationNotFound rOne.version)⟩) :=
  (rollback_missing_file (fun _ => true) true stOneRow [] rOne rfl
    (fun f hf => absurd hf (List.not_mem_nil f))).2 1 (le_refl 1)

/-- C2 counterexample: with force mode on and the applied migration's file
absent, the down command does not remove the ledger record (the state is
unchanged and the ledger still holds the row) and fails with
MigrationNotFound, contradicting the claim that force mode removes the
record. -/
theorem down_force_missing_file_keeps_record :
    (down_execute (fun _ => true) true 1 stOneRow []).1 = stOneRow ∧
    stOneRow.ledger ≠ [] ∧
    (down_execute (fun _ => true) true 1 stOneRow []).2.error =
      some (.MigrationNotFound ("20250101_1".data)) :=
  ⟨rfl, by simp [stOneRow], rfl⟩

/-- The statements actually sent to the session by the execution loop: every
statement with nonempty trimmed form up to and including the first failing
one. -/
def attemptedStmts (oracle : List Char → Bool) : List (List Char) → List (List Char)
  | [] => []
  | s :: rest =>
    if (rustTrim s).isEmpty then attemptedStmts oracle rest
    else if oracle s then s :: attemptedStmts oracle rest
    else [s]

/-- The first statement of a section that the session rejects. -/
def firstFailing (oracle : List Char → Bool) (ss : List (List Char)) :
    Option (List Char) :=
  ss.find? (fun s => !(rustTrim s).isEmpty && !oracle s)

theorem execStatements_cons_skip {oracle : List Char → Bool} {st : EngineState}
    {s : List Char} {rest : List (List Char)} (ht : (rustTrim s).isEmpty = true) :
    execStatements oracle st (s :: rest) = execStatements oracle st rest := by
  conv_lhs => rw [execStatements]
  rw [if_pos ht]

theorem execStatements_cons_ok {oracle : List Char → Bool} {st : EngineState}
    {s : List Char} {rest : List (List Char)} (ht : (rustTrim s).isEmpty = false)
    (ho : oracle s = true) :
    execStatements oracle st (s :: rest) =
      execStatements oracle { st with execLog := st.execLog ++ [s] } rest := by
  conv_lhs => rw [execStatements]
  rw [if_neg (by simp [ht]), if_pos ho]

theorem execStatements_cons_fail {oracle : List Char → Bool} {st : EngineState}
    {s : List Char} {rest : List (List Char)} (ht : (rustTrim s).isEmpty = false)
    (ho : oracle s = false) :
    execStatements oracle st (s :: rest) =
      ({ st with execLog := st.execLog ++ [s] }, some s) := by
  conv_lhs => rw [execStatements]
  rw [if_neg (by simp [ht]), if_neg (by simp [ho])]

theorem attemptedStmts_cons_skip {oracle : List Char → Bool} {s : List Char}
    {rest : List (List Char)} (ht : (rustTrim s).isEmpty = true) :
    attemptedStmts oracle (s :: rest) = attemptedStmts oracle rest := by
  conv_lhs => rw [attemptedStmts]
  rw [if_pos ht]

theorem attemptedStmts_cons_ok {oracle : List Char → Bool} {s : List Char}
    {rest : List (List Char)} (ht : (rustTrim s).isEmpty = false)
    (ho : oracle s = true) :
    attemptedStmts oracle (s :: rest) = s :: attemptedStmts oracle rest := by
  conv_lhs => rw [attemptedStmts]
  rw [if_neg (by simp [ht]), if_pos ho]

theorem attemptedStmts_cons_fail {oracle : List Char → Bool} {s : List Char}
    {rest : List (List Char)} (ht : (rustTrim s).isEmpty = false)
    (ho : oracle s = false) :
    attemptedStmts oracle (s :: rest) = [s] := by
  conv_lhs => rw [attemptedStmts]
  rw [if_neg (by simp [ht]), if_neg (by simp [ho])]

theorem firstFailing_cons_pass {oracle : List Char → Bool} {s : List Char}
    {rest : List (List Char)} (h : (!(rustTrim s).isEmpty && !oracle s) = false) :
    firstFailing oracle (s :: rest) = firstFailing oracle rest := by
  unfold firstFailing
  rw [List.find?_cons, h]

theorem firstFailing_cons_fail {oracle : List Char → Bool} {s : List Char}
    {rest : List (List Char)} (h : (!(rustTrim s).isEmpty && !oracle s) = true) :
    firstFailing oracle (s :: rest) = some s := by
  unfold firstFailing
  rw [List.find?_cons, h]

theorem execStatements_spec (oracle : List Char → Bool) (ss : List (List Char)) :
    ∀ st : EngineState,
      execStatements oracle st ss =
        ({ st with execLog := st.execLog ++ attemptedStmts oracle ss },
         firstFailing oracle ss) := by
  induction ss with
  | nil =>
    intro st
    simp [execStatements, attemptedStmts, firstFailing]
  | cons s rest ih =>
    intro st
    by_cases ht : (rustTrim s).isEmpty
    · rw [execStatements_cons_skip ht, attemptedStmts_cons_skip ht,
        firstFailing_cons_pass (by simp [ht]), ih st]
    · rw [Bool.not_eq_true] at ht
      by_cases ho : oracle s
      · rw [execStatements_cons_ok ht ho, attemptedStmts_cons_ok ht ho,
          firstFailing_cons_pass (by simp [ho]), ih _]
        simp
      · rw [Bool.not_eq_true] at ho
        rw [execStatements_cons_fail ht ho, attemptedStmts_cons_fail ht ho,
          firstFailing_cons_fail (by simp [ht, ho])]

/-- The statements of a migration's UP section (empty when parsing fails). -/
def migStatements (m : MigrationFile) : List (List Char) :=
  match parse_migration_content m.content with
  | .ok (up, _) => split_cql_statements up
  | .error _ => []

/-- The UP statements of a migration actually sent before the run stops. -/
def migAttempted (oracle : List Char → Bool) (m : MigrationFile) : List (List Char) :=
  match parse_migration_content m.content with
  | .ok (up, _) => attemptedStmts oracle (split_cql_statements up)
  | .error _ => []

/-- The error on which applying a migration fails: its parse error, or the
first UP statement the session rejects. -/
def migFailure (oracle : List Char → Bool) (m : MigrationFile) :
    Option MigrationError :=
  match parse_migration_content m.content with
  | .error e => some (.InvalidFormat e)
  | .ok (up, _) => (firstFailing oracle (split_cql_statements up)).map .QueryError

/-- Whether a migration parses and all its UP statements succeed. -/
def migOk (oracle : List Char → Bool) (m : MigrationFile) : Bool :=
  match parse_migration_content m.content with
  | .error _ => false
  | .ok (up, _) => (firstFailing oracle (split_cql_statements up)).isNone

/-- The ledger row created for a migration applied at the given instant. -/
def recordOf (now : Int) (m : MigrationFile) : MigrationRecord :=
  ⟨m.version, now, m.checksum, m.description⟩

theorem attemptedStmts_eq_self (oracle : List Char → Bool) :
    ∀ ss : List (List Char), (∀ s ∈ ss, (rustTrim s).isEmpty = false) →
      firstFailing oracle ss = none → attemptedStmts oracle ss = ss
  | [], _, _ => rfl
  | s :: rest, hss, hff => by
    have ht : (rustTrim s).isEmpty = false := hss s (List.mem_cons_self s rest)
    have ho : oracle s = true := by
      by_cases hc : oracle s = true
      · exact hc
      · rw [Bool.not_eq_true] at hc
        rw [firstFailing_cons_fail (by simp [ht, hc])] at hff
        exact absurd hff (by simp)
    have hffr : firstFailing oracle rest = none := by
      rw [firstFailing_cons_pass (by simp [ho])] at hff
      exact hff
    rw [attemptedStmts_cons_ok ht ho,
      attemptedStmts_eq_self oracle rest
        (fun x hx => hss x (List.mem_cons_of_mem s hx)) hffr]

theorem apply_migration_parse_ok {oracle : List Char → Bool} {now : Int}
    {st : EngineState} {m : MigrationFile} {up : List Char} {d : Option (List Char)}
    (hfresh : is_migration_applied st m.version = false)
    (hp : parse_migration_content m.content = .ok (up, d)) :
    apply_migration oracle now st m =
      (match execStatements oracle st (split_cql_statements up) with
       | (st2, some s) => (st2, some (.QueryError s))
       | (st2, none) => (record_migration_applied now st2 m, none)) := by
  unfold apply_migration
  rw [hfresh, hp]
  rfl

theorem apply_migration_parse_err {oracle : List Char → Bool} {now : Int}
    {st : EngineState} {m : MigrationFile} {e : List Char}
    (hfresh : is_migration_applied st m.version = false)
    (hp : parse_migration_content m.content = .error e) :
    apply_migration oracle now st m = (st, some (.InvalidFormat e)) := by
  unfold apply_migration
  rw [hfresh, hp]
  rfl

theorem apply_migration_succeeds (oracle : List Char → Bool) (now : Int)
    (st : EngineState) (m : MigrationFile)
    (hfresh : is_migration_applied st m.version = false)
    (hok : migOk oracle m = true) :
    apply_migration oracle now st m =
      ({ ledger := st.ledger ++ [recordOf now m],
         execLog := st.execLog ++ migStatements m,
         ddlLog := st.ddlLog }, none) := by
  cases hp : parse_migration_content m.content with
  | error e => simp [migOk, hp] at hok
  | ok p =>
    obtain ⟨up, d⟩ := p
    have hff : firstFailing oracle (split_cql_statements up) = none := by
      have h2 : (firstFailing oracle (split_cql_statements up)).isNone = true := by
        simpa [migOk, hp] using hok
      simpa [Option.isNone_iff_eq_none] using h2
    have hms : migStatements m = split_cql_statements up := by
      simp [migStatements, hp]
    have hatt : attemptedStmts oracle (split_cql_statements up) = split_cql_statements up :=
      attemptedStmts_eq_self oracle _
        (fun s hs => by
          have hmem := mem_split_cql hs
          rw [hmem.2.1]
          exact hmem.2.2) hff
    have hfresh2 : st.ledger.any (fun r => r.version == m.version) = false := hfresh
    have hins : ledgerInsert st.ledger (recordOf now m) = st.ledger ++ [recordOf now m] := by
      simp [ledgerInsert, recordOf, hfresh2]
    have hins2 := hins
    simp only [recordOf] at hins2
    rw [apply_migration_parse_ok hfresh hp, execStatements_spec, hff]
    simp [record_migration_applied, hatt, hms, hins2, recordOf]

theorem apply_migration_fails (oracle : List Char → Bool) (now : Int)
    (st : EngineState) (m : MigrationFile)
    (hfresh : is_migration_applied st m.version = false)
    (hbad : migOk oracle m = false) :
    apply_migration oracle now st m =
      ({ st with execLog := st.execLog ++ migAttempted oracle m },
       migFailure oracle m) := by
  cases hp : parse_migration_content m.content with
  | error e =>
    rw [apply_migration_parse_err hfresh hp]
    simp [migAttempted, migFailure, hp]
  | ok p =>
    obtain ⟨up, d⟩ := p
    obtain ⟨s, hs⟩ : ∃ s, firstFailing oracle (split_cql_statements up) = some s := by
      cases hf : firstFailing oracle (split_cql_statements up) with
      | none => simp [migOk, hp, hf] at hbad
      | some s => exact ⟨s, rfl⟩
    rw [apply_migration_parse_ok hfresh hp, execStatements_spec, hs]
    simp [migAttempted, migFailure, hp, hs]

theorem migFailure_isSome {oracle : List Char → Bool} {m : MigrationFile}
    (h : migOk oracle m = false) : (migFailure oracle m).isSome = true := by
  cases hp : parse_migration_content m.content with
  | error e => simp [migFailure, hp]
  | ok p =>
    obtain ⟨up, d⟩ := p
    cases hf : firstFailing oracle (split_cql_statements up) with
    | none => simp [migOk, hp, hf] at h
    | some s => simp [migFailure, hp, hf]

theorem up_apply_loop_cons_ok {oracle : List Char → Bool} {now : Int}
    {st st2 : EngineState} {m : MigrationFile} {rest : List MigrationFile}
    {cnt : Nat} {vs : List (List Char)}
    (h : apply_migration oracle now st m = (st2, none)) :
    up_apply_loop oracle now st (m :: rest) cnt vs =
      up_apply_loop oracle now st2 rest (cnt + 1) (vs ++ [m.version]) := by
  conv_lhs => rw [up_apply_loop]
  rw [h]

theorem up_apply_loop_cons_err {oracle : List Char → Bool} {now : Int}
    {st st2 : EngineState} {m : MigrationFile} {rest : List MigrationFile}
    {cnt : Nat} {vs : List (List Char)} {e : MigrationError}
    (h : apply_migration oracle now st m = (st2, some e)) :
    up_apply_loop oracle now st (m :: rest) cnt vs =
      (st2, ⟨cnt, vs, some m.version, some e⟩) := by
  conv_lhs => rw [up_apply_loop]
  rw [h]

theorem up_loop_spec (oracle : List Char → Bool) (now : Int) :
    ∀ (pre : List MigrationFile) (bad : MigrationFile) (post : List MigrationFile)
      (st : EngineState) (cnt : Nat) (vs : List (List Char)),
      (∀ m ∈ pre ++ bad :: post, ∀ row ∈ st.ledger, row.version ≠ m.version) →
      ((pre ++ bad :: post).map (fun m => m.version)).Nodup →
      (∀ m ∈ pre, migOk oracle m = true) →
      migOk oracle bad = false →
      up_apply_loop oracle now st (pre ++ bad :: post) cnt vs =
        ({ ledger := st.ledger ++ pre.map (recordOf now),
           execLog := st.execLog ++ pre.flatMap migStatements ++ migAttempted oracle bad,
           ddlLog := st.ddlLog },
         ⟨cnt + pre.length, vs ++ pre.map (fun m => m.version),
          some bad.version, migFailure oracle bad⟩) := by
  intro pre
  induction pre with
  | nil =>
    intro bad post st cnt vs hfresh hnodup hpre hbad
    have hfb : is_migration_applied st bad.version = false := by
      unfold is_migration_applied
      rw [List.any_eq_false]
      intro row hrow
      simpa using hfresh bad (List.mem_cons_self bad post) row hrow
    obtain ⟨e, he⟩ := Option.isSome_iff_exists.mp (migFailure_isSome hbad)
    have happ := apply_migration_fails oracle now st bad hfb hbad
    rw [he] at happ
    rw [List.nil_append, up_apply_loop_cons_err happ, he]
    simp

  | cons m pre2 ih =>
    intro bad post st cnt vs hfresh hnodup hpre hbad
    have hfm : is_migration_applied st m.version = false := by
      unfold is_migration_applied
      rw [List.any_eq_false]
      intro row hrow
      simpa using hfresh m (List.mem_cons_self m (pre2 ++ bad :: post)) row hrow
    have happ := apply_migration_succeeds oracle now st m hfm
      (hpre m (List.mem_cons_self m pre2))
    rw [List.cons_append, up_apply_loop_cons_ok happ]
    have hnodup2 : ((pre2 ++ bad :: post).map (fun m => m.version)).Nodup := by
      rw [List.cons_append, List.map_cons, List.nodup_cons] at hnodup
      exact hnodup.2
    have hnotin : m.version ∉ (pre2 ++ bad :: post).map (fun m => m.version) := by
      rw [List.cons_append, List.map_cons, List.nodup_cons] at hnodup
      exact hnodup.1
    have hfresh2 : ∀ m2 ∈ pre2 ++ bad :: post,
        ∀ row ∈ st.ledger ++ [recordOf now m], row.version ≠ m2.version := by
      intro m2 hm2 row hrow
      rcases List.mem_append.mp hrow with hrow | hrow
      · exact hfresh m2 (by rw [List.cons_append]; exact List.mem_cons_of_mem m hm2) row hrow
      · rw [List.mem_singleton.mp hrow]
        intro hveq
        have hveq2 : m.version = m2.version := hveq
        exact hnotin (hveq2 ▸ List.mem_map_of_mem (fun m => m.version) hm2)
    rw [ih bad post
      { ledger := st.ledger ++ [recordOf now m],
        execLog := st.execLog ++ migStatements m,
        ddlLog := st.ddlLog } (cnt + 1) (vs ++ [m.version]) hfresh2 hnodup2
      (fun m2 hm2 => hpre m2 (List.mem_cons_of_mem m hm2)) hbad]
    simp [List.append_assoc, List.flatMap_cons, Nat.add_comm, Nat.add_left_comm, Nat.add_assoc]

/-- C1: when the batch the up command runs (all pending migrations, or a
requested count of them, in scan order) consists of candidates that succeed
followed by a first failing candidate (its content fails to parse or one of
its UP statements is rejected), the command stops at that candidate: exactly
the successful ones get ledger rows appended, the statement log grows by
exactly their statements plus the failing candidate's attempted statements
(so no later candidate executes anything and the ledger is otherwise
untouched), and the report carries the count applied so far, their versions,
the failing version, and the failure detail. -/
theorem up_batch_fail_fast (oracle : List Char → Bool) (now : Int)
    (count? : Option Nat) (st0 : EngineState) (files : List MigrationFile)
    (pre : List MigrationFile) (bad : MigrationFile) (post : List MigrationFile)
    (hbatch : upBatch count? st0 files = pre ++ bad :: post)
    (hnodup : ((pre ++ bad :: post).map (fun m => m.version)).Nodup)
    (hpre : ∀ m ∈ pre, migOk oracle m = true)
    (hbad : migOk oracle bad = false) :
    up_execute oracle now count? st0 files =
      ({ ledger := st0.ledger ++ pre.map (recordOf now),
         execLog := st0.execLog ++ pre.flatMap migStatements ++ migAttempted oracle bad,
         ddlLog := st0.ddlLog },
       ⟨pre.length, pre.map (fun m => m.version), some bad.version,
        migFailure oracle bad⟩) ∧
    (migFailure oracle bad).isSome = true := by
  have hfresh : ∀ m ∈ pre ++ bad :: post, ∀ row ∈ st0.ledger,
      row.version ≠ m.version := by
    intro m hm row hrow
    have hmp : m ∈ get_pending_migrations st0 files := by
      have hmb : m ∈ upBatch count? st0 files := hbatch ▸ hm
      unfold upBatch at hmb
      cases count? with
      | none => exact hmb
      | some c => exact List.take_subset c _ hmb
    unfold get_pending_migrations get_applied_migrations at hmp
    rw [List.mem_filter] at hmp
    have hnc := hmp.2
    rw [Bool.not_eq_true'] at hnc
    intro hveq
    have hmemv : (st0.ledger.map (fun r => r.version)).contains m.version = true :=
      List.elem_iff.mpr (hveq ▸ List.mem_map_of_mem (fun r => r.version) hrow)
    rw [hnc] at hmemv
    exact absurd hmemv (by simp)
  constructor
  · unfold up_execute
    rw [hbatch, up_loop_spec oracle now pre bad post st0 0 [] hfresh hnodup hpre hbad]
    simp
  · exact migFailure_isSome hbad

/-- A pending migration whose single UP statement succeeds. -/
def mUpA : MigrationFile :=
  ⟨"20250101_1_a".data, ['a'], "20250101_1_a.cql".data, "CREATE A;".data, ['h']⟩

/-- A pending migration whose content has no UP statements, so parsing it
fails. -/
def mUpBad : MigrationFile :=
  ⟨"20250102_2_b".data, ['b'], "20250102_2_b.cql".data, "-- nothing".data, ['h']⟩

/-- The empty engine state. -/
def stEmpty : EngineState := ⟨[], [], []⟩

/-- Witness for up_batch_fail_fast: applying the batch [mUpA, mUpBad] against
an empty ledger applies mUpA, stops on mUpBad, and reports one applied
migration with the failing version. -/
theorem up_batch_fail_fast_witness :
    up_execute (fun _ => true) 7 none stEmpty [mUpA, mUpBad] =
      ({ ledger := stEmpty.ledger ++ [mUpA].map (recordOf 7),
         execLog := stEmpty.execLog ++ [mUpA].flatMap migStatements ++
           migAttempted (fun _ => true) mUpBad,
         ddlLog := stEmpty.ddlLog },
       ⟨[mUpA].length, [mUpA].map (fun m => m.version), some mUpBad.version,
        migFailure (fun _ => true) mUpBad⟩) :=
  (up_batch_fail_fast (fun _ => true) 7 none stEmpty [mUpA, mUpBad] [mUpA] mUpBad []
    (by rfl) (by decide) (by decide) (by decide)).1

theorem utf8Size_one_of_isDigit {c : Char} (h : c.isDigit = true) : c.utf8Size = 1 := by
  simp [Char.isDigit] at h
  unfold Char.utf8Size
  rw [if_pos]
  show c.val ≤ UInt32.ofNatCore 127 Char.utf8Size.proof_1
  have h2 := h.2
  rw [UInt32.le_def, BitVec.le_def] at h2 ⊢
  have e1 : (UInt32.ofNatCore 127 Char.utf8Size.proof_1).toBitVec.toNat = 127 := rfl
  have e2 : (57 : UInt32).toBitVec.toNat = 57 := rfl
  omega

theorem bne_underscore_of_isDigit {c : Char} (h : c.isDigit = true) :
    (c != '_') = true := by
  have hne : c ≠ '_' := by
    intro he
    subst he
    exact absurd h (by decide)
  simpa using hne

theorem utf8Len_nil : utf8Len [] = 0 := rfl

theorem utf8Len_cons (c : Char) (l : List Char) :
    utf8Len (c :: l) = c.utf8Size + utf8Len l := by
  simp [utf8Len]

theorem utf8Len_append (a b : List Char) :
    utf8Len (a ++ b) = utf8Len a + utf8Len b := by
  simp [utf8Len]

theorem utf8Len_eq_length_of_ones {l : List Char}
    (h : ∀ c ∈ l, c.utf8Size = 1) : utf8Len l = l.length := by
  induction l with
  | nil => rfl
  | cons c r ih =>
    rw [utf8Len_cons, h c (List.mem_cons_self c r),
      ih (fun x hx => h x (List.mem_cons_of_mem c hx))]
    simp [Nat.add_comm]

theorem splitAtByte_append (a b : List Char) :
    splitAtByte (utf8Len a) (a ++ b) = some (a, b) := by
  induction a with
  | nil => simp [splitAtByte, utf8Len]
  | cons c a2 ih =>
    have hsz : 0 < c.utf8Size := Char.utf8Size_pos c
    obtain ⟨k, hk⟩ : ∃ k, utf8Len (c :: a2) = k + 1 :=
      ⟨utf8Len (c :: a2) - 1, by rw [utf8Len_cons]; omega⟩
    rw [hk, List.cons_append]
    have hle : c.utf8Size ≤ k + 1 := by rw [← hk, utf8Len_cons]; omega
    have hrest : k + 1 - c.utf8Size = utf8Len a2 := by rw [← hk, utf8Len_cons]; omega
    conv_lhs => rw [splitAtByte]
    rw [if_pos hle, hrest, ih]
    rfl

theorem splitAtByte_eq_some :
    ∀ (s : List Char) (n : Nat) (a b : List Char),
      splitAtByte n s = some (a, b) → s = a ++ b ∧ utf8Len a = n
  | s, 0, a, b => by
    intro h
    rw [splitAtByte] at h
    cases h
    exact ⟨rfl, rfl⟩
  | [], n + 1, a, b => by
    intro h
    rw [splitAtByte] at h
    exact absurd h (by simp)
  | c :: rest, n + 1, a, b => by
    intro h
    rw [splitAtByte] at h
    by_cases hle : c.utf8Size ≤ n + 1
    · rw [if_pos hle] at h
      cases hsp : splitAtByte (n + 1 - c.utf8Size) rest with
      | none => rw [hsp] at h; exact absurd h (by simp)
      | some p =>
        obtain ⟨a2, b2⟩ := p
        rw [hsp] at h
        simp only [Option.map_some', Option.some.injEq, Prod.mk.injEq] at h
        obtain ⟨ha, hb⟩ := h
        obtain ⟨hrest, hlen⟩ := splitAtByte_eq_some rest (n + 1 - c.utf8Size) a2 b2 hsp
        subst ha
        subst hb
        refine ⟨by rw [hrest, List.cons_append], ?_⟩
        rw [utf8Len_cons, hlen]
        omega
    · rw [if_neg hle] at h
      exact absurd h (by simp)

theorem takeWhile_append_all {p : Char → Bool} {a : List Char} (l : List Char)
    (h : ∀ c ∈ a, p c = true) :
    (a ++ l).takeWhile p = a ++ l.takeWhile p := by
  induction a with
  | nil => rfl
  | cons c a2 ih =>
    rw [List.cons_append, List.takeWhile_cons,
      if_pos (h c (List.mem_cons_self c a2)),
      ih (fun x hx => h x (List.mem_cons_of_mem c hx)), List.cons_append]

theorem dropWhile_append_all {p : Char → Bool} {a : List Char} (l : List Char)
    (h : ∀ c ∈ a, p c = true) :
    (a ++ l).dropWhile p = l.dropWhile p := by
  induction a with
  | nil => rfl
  | cons c a2 ih =>
    rw [List.cons_append, List.dropWhile_cons,
      if_pos (h c (List.mem_cons_self c a2)),
      ih (fun x hx => h x (List.mem_cons_of_mem c hx))]

theorem intercalate_single (sep : List Char) (x : List Char) :
    List.intercalate sep [x] = x := by
  simp [List.intercalate, List.intersperse]

theorem append_underscore_inj :
    ∀ {x y u v : List Char}, '_' ∉ x → '_' ∉ y →
      x ++ '_' :: u = y ++ '_' :: v → x = y ∧ u = v
  | [], [], u, v, _, _, h => by
    simp only [List.nil_append, List.cons.injEq] at h
    exact ⟨rfl, h.2⟩
  | [], c :: y2, u, v, _, hy, h => by
    simp only [List.nil_append, List.cons_append, List.cons.injEq] at h
    exact absurd (h.1 ▸ List.mem_cons_self c y2) (h.1 ▸ hy)
  | c :: x2, [], u, v, hx, _, h => by
    simp only [List.nil_append, List.cons_append, List.cons.injEq] at h
    exact absurd (h.1.symm ▸ List.mem_cons_self c x2) (h.1.symm ▸ hx)
  | c :: x2, c2 :: y2, u, v, hx, hy, h => by
    simp only [List.cons_append, List.cons.injEq] at h
    obtain ⟨hc, h2⟩ := h
    obtain ⟨hxy, huv⟩ := append_underscore_inj
      (fun hm => hx (List.mem_cons_of_mem c hm))
      (fun hm => hy (List.mem_cons_of_mem c2 hm)) h2
    exact ⟨by rw [hc, hxy], huv⟩

theorem version_part_eq (stem : List Char) :
    List.intercalate ['_'] ((splitChar '_' stem).take 2) =
      (match stem.dropWhile (fun c => c != '_') with
       | [] => stem
       | _ :: r2 =>
         stem.takeWhile (fun c => c != '_') ++ '_' :: r2.takeWhile (fun c => c != '_')) := by
  cases hd : stem.dropWhile (fun c => c != '_') with
  | nil =>
    have hall : ∀ c ∈ stem, (c != '_') = true := List.dropWhile_eq_nil_iff.mp hd
    have hnus : ('_' : Char) ∉ stem := fun hm => by simpa using hall '_' hm
    rw [splitChar_no_sep hnus]
    rw [show ([stem] : List (List Char)).take 2 = [stem] from rfl, intercalate_single]
  | cons c0 r2 =>
    have hc0 : (c0 != '_') = false :=
      dropWhile_head?_not (fun c => c != '_') stem c0 (by rw [hd]; rfl)
    have hc0e : c0 = '_' := by simpa using hc0
    have hstem : stem = stem.takeWhile (fun c => c != '_') ++ '_' :: r2 := by
      conv_lhs => rw [← List.takeWhile_append_dropWhile (p := fun c => c != '_') (l := stem)]
      rw [hd, hc0e]
    have hnua : ('_' : Char) ∉ stem.takeWhile (fun c => c != '_') := fun hm => by
      simpa using List.mem_takeWhile_imp hm
    conv_lhs => rw [hstem]
    rw [splitChar_append_sep _ hnua]
    cases hsp : splitChar '_' r2 with
    | nil => exact absurd hsp (splitChar_ne_nil '_' r2)
    | cons g0 gs =>
      have hg0 : g0 = r2.takeWhile (fun c => c != '_') := by
        have hh := splitChar_headD '_' r2
        rw [hsp] at hh
        exact hh
      rw [show (stem.takeWhile (fun c => c != '_') :: g0 :: gs).take 2 =
        [stem.takeWhile (fun c => c != '_'), g0] from rfl]
      rw [intercalate_pair, intercalate_single, hg0]
      simp

theorem specVersionPattern_parts {stem : List Char}
    (h : specVersionPattern stem = true) :
    (stem.take 8).length = 8 ∧ (stem.take 8).all Char.isDigit = true ∧
    ∃ r2, stem.drop 8 = '_' :: r2 ∧
      underscoreOrEnd (r2.dropWhile Char.isDigit) = true := by
  unfold specVersionPattern at h
  simp only [Bool.and_eq_true, decide_eq_true_eq] at h
  obtain ⟨⟨h1, h2⟩, h3⟩ := h
  refine ⟨h1, h2, ?_⟩
  cases hd : stem.drop 8 with
  | nil =>
    rw [hd] at h3
    exact absurd h3 (by simp)
  | cons c r2 =>
    rw [hd] at h3
    have h4 : ((c = '_' : Bool) && underscoreOrEnd (r2.dropWhile Char.isDigit)) = true := h3
    simp only [Bool.and_eq_true, decide_eq_true_eq] at h4
    exact ⟨r2, by rw [h4.1], h4.2⟩

theorem specVersionPattern_build {stem : List Char}
    (h1 : (stem.take 8).length = 8) (h2 : (stem.take 8).all Char.isDigit = true)
    {r2 : List Char} (hd : stem.drop 8 = '_' :: r2)
    (h3 : underscoreOrEnd (r2.dropWhile Char.isDigit) = true) :
    specVersionPattern stem = true := by
  unfold specVersionPattern
  rw [hd]
  simp [h1, h2, h3]

theorem vp_struct {stem r2 : List Char}
    (h2 : (stem.take 8).all Char.isDigit = true)
    (hd : stem.drop 8 = '_' :: r2)
    (h3 : underscoreOrEnd (r2.dropWhile Char.isDigit) = true) :
    List.intercalate ['_'] ((splitChar '_' stem).take 2) =
      stem.take 8 ++ '_' :: r2.takeWhile Char.isDigit := by
  have hstem : stem = stem.take 8 ++ '_' :: r2 := by
    conv_lhs => rw [← List.take_append_drop 8 stem]
    rw [hd]
  have hdig : ∀ c ∈ stem.take 8, (c != '_') = true := fun c hc =>
    bne_underscore_of_isDigit (List.all_eq_true.mp h2 c hc)
  have htw : stem.takeWhile (fun c => c != '_') = stem.take 8 := by
    conv_lhs => rw [hstem]
    rw [takeWhile_append_all _ hdig, List.takeWhile_cons, if_neg (by simp)]
    simp
  have hdw : stem.dropWhile (fun c => c != '_') = '_' :: r2 := by
    conv_lhs => rw [hstem]
    rw [dropWhile_append_all _ hdig, List.dropWhile_cons, if_neg (by simp)]
  have hts : r2.takeWhile (fun c => c != '_') = r2.takeWhile Char.isDigit := by
    conv_lhs => rw [← List.takeWhile_append_dropWhile (p := Char.isDigit) (l := r2)]
    rw [takeWhile_append_all _
      (fun c hc => bne_underscore_of_isDigit (List.mem_takeWhile_imp hc))]
    cases hw : r2.dropWhile Char.isDigit with
    | nil => simp
    | cons c1 w2 =>
      rw [hw] at h3
      have hc1 : c1 = '_' := by simpa [underscoreOrEnd] using h3
      rw [List.takeWhile_cons, if_neg (by simp [hc1])]
      simp
  rw [version_part_eq, hdw]
  show stem.takeWhile (fun c => c != '_') ++ '_' :: r2.takeWhile (fun c => c != '_') =
    stem.take 8 ++ '_' :: r2.takeWhile Char.isDigit
  rw [htw, hts]

theorem extract_ok_of_pattern {filename : List Char}
    (hpat : specVersionPattern (trim_end_matches_cql filename) = true) :
    extract_version_from_filename filename =
      .ok (some (trim_end_matches_cql filename)) := by
  obtain ⟨h1, h2, r2, hd, h3⟩ := specVersionPattern_parts hpat
  have hvp := vp_struct h2 hd h3
  have hdigits8 : ∀ c ∈ (trim_end_matches_cql filename).take 8, c.utf8Size = 1 :=
    fun c hc => utf8Size_one_of_isDigit (List.all_eq_true.mp h2 c hc)
  have hdsall : ((r2.takeWhile Char.isDigit).all Char.isDigit) = true :=
    List.all_eq_true.mpr (fun c hc => List.mem_takeWhile_imp hc)
  have hlen8 : utf8Len ((trim_end_matches_cql filename).take 8) = 8 := by
    rw [utf8Len_eq_length_of_ones hdigits8, h1]
  have hsp : splitAtByte 8
      (List.intercalate ['_'] ((splitChar '_' (trim_end_matches_cql filename)).take 2)) =
      some ((trim_end_matches_cql filename).take 8, '_' :: r2.takeWhile Char.isDigit) := by
    have hap := splitAtByte_append ((trim_end_matches_cql filename).take 8)
      ('_' :: r2.takeWhile Char.isDigit)
    rw [hlen8] at hap
    rw [hvp]
    exact hap
  have hbig : 9 ≤ utf8Len
      (List.intercalate ['_'] ((splitChar '_' (trim_end_matches_cql filename)).take 2)) := by
    rw [hvp, utf8Len_append, utf8Len_cons, hlen8]
    have hu : ('_' : Char).utf8Size = 1 := by decide
    omega
  simp only [extract_version_from_filename]
  rw [if_pos hbig, hsp]
  simp [h2, hdsall]

theorem pattern_of_accept {stem dp sd : List Char}
    (hsp : splitAtByte 8 (List.intercalate ['_'] ((splitChar '_' stem).take 2)) =
      some (dp, '_' :: sd))
    (hdp : dp.all Char.isDigit = true) (hsd : sd.all Char.isDigit = true) :
    specVersionPattern stem = true := by
  obtain ⟨hvp, hlen⟩ := splitAtByte_eq_some _ _ _ _ hsp
  have hdone : ∀ c ∈ dp, c.utf8Size = 1 := fun c hc =>
    utf8Size_one_of_isDigit (List.all_eq_true.mp hdp c hc)
  have hdplen : dp.length = 8 := by
    rw [← utf8Len_eq_length_of_ones hdone, hlen]
  have hnud : ('_' : Char) ∉ dp := fun hm =>
    absurd (List.all_eq_true.mp hdp '_' hm) (by decide)
  rw [version_part_eq] at hvp
  cases hd : stem.dropWhile (fun c => c != '_') with
  | nil =>
    rw [hd] at hvp
    have hvp2 : stem = dp ++ '_' :: sd := hvp
    have hall := List.dropWhile_eq_nil_iff.mp hd
    have hu : ('_' != '_') = true :=
      hall '_' (by rw [hvp2]; exact List.mem_append_right _ (List.mem_cons_self _ _))
    exact absurd hu (by simp)
  | cons c0 r2 =>
    rw [hd] at hvp
    have hvp2 : stem.takeWhile (fun c => c != '_') ++ '_' ::
        r2.takeWhile (fun c => c != '_') = dp ++ '_' :: sd := hvp
    have hc0 : c0 = '_' := by
      simpa using dropWhile_head?_not (fun c => c != '_') stem c0 (by rw [hd]; rfl)
    have hnua : ('_' : Char) ∉ stem.takeWhile (fun c => c != '_') := fun hm => by
      simpa using List.mem_takeWhile_imp hm
    obtain ⟨heq1, heq2⟩ := append_underscore_inj hnua hnud hvp2
    have hstem : stem = dp ++ '_' :: r2 := by
      conv_lhs => rw [← List.takeWhile_append_dropWhile (p := fun c => c != '_') (l := stem)]
      rw [hd, hc0, heq1]
    have ht8 : stem.take 8 = dp := by
      conv_lhs => rw [hstem, ← hdplen]
      exact List.take_left dp ('_' :: r2)
    have hd8 : stem.drop 8 = '_' :: r2 := by
      conv_lhs => rw [hstem, ← hdplen]
      exact List.drop_left dp ('_' :: r2)
    have hsddig : ∀ c ∈ sd, Char.isDigit c = true := List.all_eq_true.mp hsd
    have hr2 : r2 = sd ++ r2.dropWhile (fun c => c != '_') := by
      conv_lhs => rw [← List.takeWhile_append_dropWhile (p := fun c => c != '_') (l := r2)]
      rw [heq2]
    have hdw : r2.dropWhile Char.isDigit =
        (r2.dropWhile (fun c => c != '_')).dropWhile Char.isDigit := by
      conv_lhs => rw [hr2]
      rw [dropWhile_append_all _ hsddig]
    apply specVersionPattern_build (by rw [ht8, hdplen]) (by rw [ht8]; exact hdp) hd8
    rw [hdw]
    cases hw : r2.dropWhile (fun c => c != '_') with
    | nil => rfl
    | cons c1 w2 =>
      have hc1 : c1 = '_' := by
        simpa using dropWhile_head?_not (fun c => c != '_') r2 c1 (by rw [hw]; rfl)
      rw [List.dropWhile_cons, if_neg (by simp [hc1])]
      simp [underscoreOrEnd, hc1]

theorem extract_version_eq_spec (filename : List Char) :
    extract_version_from_filename filename =
      (if specVersionPattern (trim_end_matches_cql filename) then
        Except.ok (some (trim_end_matches_cql filename))
      else if extract_version_panics filename then Except.error ()
      else Except.ok none) := by
  by_cases hpat : specVersionPattern (trim_end_matches_cql filename)
  · rw [if_pos hpat]
    exact extract_ok_of_pattern hpat
  · rw [if_neg hpat]
    rw [Bool.not_eq_true] at hpat
    by_cases hbig : 9 ≤ utf8Len
      (List.intercalate ['_'] ((splitChar '_' (trim_end_matches_cql filename)).take 2))
    · rcases Option.eq_none_or_eq_some (splitAtByte 8
        (List.intercalate ['_'] ((splitChar '_' (trim_end_matches_cql filename)).take 2)))
        with hsp | ⟨p, hsp⟩
      · have hL : extract_version_from_filename filename = .error () := by
          simp only [extract_version_from_filename]
          rw [if_pos hbig, hsp]
        have hR : extract_version_panics filename = true := by
          simp [extract_version_panics, hbig, hsp]
        rw [hL, hR]
        simp
      · obtain ⟨dp, sp⟩ := p
        have hR : extract_version_panics filename = false := by
          simp [extract_version_panics, hsp]
        rw [hR]
        have hok : extract_version_from_filename filename = .ok none → 
            extract_version_from_filename filename =
              (if (false : Bool) then Except.error () else Except.ok none) := by
          intro hh
          rw [hh]
          simp
        apply hok
        cases sp with
        | nil =>
          simp only [extract_version_from_filename]
          rw [if_pos hbig, hsp]
          by_cases hdp : dp.all Char.isDigit <;> simp [hdp]
        | cons c sd =>
          by_cases hc : c = '_'
          · subst hc
            by_cases hsd : sd.all Char.isDigit
            · by_cases hdp : dp.all Char.isDigit
              · exact absurd (pattern_of_accept hsp hdp hsd) (by simp [hpat])
              · simp only [extract_version_from_filename]
                rw [if_pos hbig, hsp]
                simp [hdp]
            · simp only [extract_version_from_filename]
              rw [if_pos hbig, hsp]
              by_cases hdp : dp.all Char.isDigit <;> simp [hdp, hsd]
          · simp only [extract_version_from_filename]
            rw [if_pos hbig, hsp]
            by_cases hdp : dp.all Char.isDigit <;> simp [hdp, hc]
    · have hL : extract_version_from_filename filename = .ok none := by
        simp only [extract_version_from_filename]
        rw [if_neg hbig]
      have hR : extract_version_panics filename = false := by
        simp [extract_version_panics, hbig]
      rw [hL, hR]
      simp

theorem trimEndCqlAux_eq (fuel : Nat) : ∀ s : List Char, s.length ≤ fuel →
    trimEndCqlAux fuel s = trim_end_matches_cql s := by
  induction fuel using Nat.strong_induction_on with
  | _ fuel ih =>
    intro s hlen
    cases fuel with
    | zero =>
      have hs : s = [] := List.length_eq_zero.mp (Nat.le_zero.mp hlen)
      subst hs
      rfl
    | succ k =>
      by_cases hsuf : ['l','q','c','.'].isPrefixOf s.reverse
      · have h4 : 4 ≤ s.length := by
          rw [List.isPrefixOf_iff_prefix] at hsuf
          have hle := hsuf.length_le
          simpa using hle
        have hta : (s.take (s.length - 4)).length = s.length - 4 := by
          rw [List.length_take]
          omega
        have lhs : trimEndCqlAux (k + 1) s = trimEndCqlAux k (s.take (s.length - 4)) := by
          conv_lhs => rw [trimEndCqlAux]
          rw [if_pos hsuf]
        obtain ⟨m, hm⟩ : ∃ m, s.length = m + 1 := ⟨s.length - 1, by omega⟩
        have rhs : trim_end_matches_cql s = trimEndCqlAux m (s.take (s.length - 4)) := by
          unfold trim_end_matches_cql
          rw [hm]
          conv_lhs => rw [trimEndCqlAux]
          rw [if_pos hsuf, hm]
        rw [lhs, rhs,
          ih k (by omega) _ (by rw [hta]; omega),
          ih m (by omega) _ (by rw [hta]; omega)]
      · have lhs : trimEndCqlAux (k + 1) s = s := by
          conv_lhs => rw [trimEndCqlAux]
          rw [if_neg hsuf]
        rw [lhs]
        unfold trim_end_matches_cql
        generalize s.length = n
        cases n with
        | zero => rfl
        | succ n2 =>
          conv_rhs => rw [trimEndCqlAux]
          rw [if_neg hsuf]

theorem cql_suffix_true (x : List Char) :
    ['l','q','c','.'].isPrefixOf (x ++ ['.', 'c', 'q', 'l']).reverse = true := by
  rw [List.isPrefixOf_iff_prefix, List.reverse_append]
  have hrev : (['.', 'c', 'q', 'l'] : List Char).reverse = ['l','q','c','.'] := rfl
  rw [hrev]
  exact List.prefix_append _ _

theorem cql_suffix_false {x : List Char} (h : ('.' : Char) ∉ x) :
    ['l','q','c','.'].isPrefixOf x.reverse = false := by
  by_contra hc
  rw [Bool.not_eq_false, List.isPrefixOf_iff_prefix] at hc
  obtain ⟨t, ht⟩ := hc
  have hmem : ('.' : Char) ∈ x.reverse := by
    rw [← ht]
    simp
  rw [List.mem_reverse] at hmem
  exact h hmem

theorem trim_end_cql_of_suffix {s : List Char}
    (h : ['l','q','c','.'].isPrefixOf s.reverse = true) :
    trim_end_matches_cql s = trim_end_matches_cql (s.take (s.length - 4)) := by
  have h4 : 4 ≤ s.length := by
    rw [List.isPrefixOf_iff_prefix] at h
    have hle := h.length_le
    simpa using hle
  obtain ⟨m, hm⟩ : ∃ m, s.length = m + 1 := ⟨s.length - 1, by omega⟩
  have hta : (s.take (s.length - 4)).length = s.length - 4 := by
    rw [List.length_take]
    omega
  conv_lhs => rw [trim_end_matches_cql, hm, trimEndCqlAux]
  rw [if_pos h]
  rw [trimEndCqlAux_eq m _ (by rw [hta]; omega)]

theorem trim_end_cql_of_not {s : List Char}
    (h : ['l','q','c','.'].isPrefixOf s.reverse = false) :
    trim_end_matches_cql s = s := by
  unfold trim_end_matches_cql
  generalize s.length = n
  cases n with
  | zero => rfl
  | succ n2 =>
    conv_lhs => rw [trimEndCqlAux]
    rw [if_neg (by simp [h])]

theorem trim_end_cql_append (x : List Char) :
    trim_end_matches_cql (x ++ ['.', 'c', 'q', 'l']) = trim_end_matches_cql x := by
  rw [trim_end_cql_of_suffix (cql_suffix_true x)]
  have h1 : (x ++ ['.', 'c', 'q', 'l']).length - 4 = x.length := by simp
  rw [h1, List.take_left]

theorem digitChar_isDigit (n : Nat) : (digitChar n).isDigit = true := by
  unfold digitChar
  have h : n % 10 = 0 ∨ n % 10 = 1 ∨ n % 10 = 2 ∨ n % 10 = 3 ∨ n % 10 = 4 ∨
      n % 10 = 5 ∨ n % 10 = 6 ∨ n % 10 = 7 ∨ n % 10 = 8 ∨ n % 10 = 9 := by omega
  rcases h with h|h|h|h|h|h|h|h|h|h <;> rw [h] <;> decide

theorem digitChar_ne_dot (n : Nat) : digitChar n ≠ '.' := fun he =>
  absurd (he ▸ digitChar_isDigit n) (by decide)

theorem pad2_all_digit (n : Nat) : ∀ c ∈ pad2 n, c.isDigit = true := by
  intro c hc
  simp only [pad2, List.mem_cons, List.not_mem_nil, or_false] at hc
  rcases hc with h | h <;> rw [h] <;> exact digitChar_isDigit _

theorem pad4_all_digit (n : Nat) : ∀ c ∈ pad4 n, c.isDigit = true := by
  intro c hc
  simp only [pad4, List.mem_cons, List.not_mem_nil, or_false] at hc
  rcases hc with h | h | h | h <;> rw [h] <;> exact digitChar_isDigit _

/-- The 8-digit date block of a generated version. -/
def dateBlock (t : Timestamp) : List Char :=
  pad4 t.year ++ pad2 t.month ++ pad2 t.day

/-- The 6-digit time block of a generated version. -/
def timeBlock (t : Timestamp) : List Char :=
  pad2 t.hour ++ pad2 t.minute ++ pad2 t.second

theorem dateBlock_all_digit (t : Timestamp) : ∀ c ∈ dateBlock t, c.isDigit = true := by
  intro c hc
  unfold dateBlock at hc
  rcases List.mem_append.mp hc with hc | hc
  · rcases List.mem_append.mp hc with hc | hc
    · exact pad4_all_digit _ c hc
    · exact pad2_all_digit _ c hc
  · exact pad2_all_digit _ c hc

theorem timeBlock_all_digit (t : Timestamp) : ∀ c ∈ timeBlock t, c.isDigit = true := by
  intro c hc
  unfold timeBlock at hc
  rcases List.mem_append.mp hc with hc | hc
  · rcases List.mem_append.mp hc with hc | hc
    · exact pad2_all_digit _ c hc
    · exact pad2_all_digit _ c hc
  · exact pad2_all_digit _ c hc

theorem dateBlock_length (t : Timestamp) : (dateBlock t).length = 8 := by
  simp [dateBlock, pad4, pad2]

theorem generate_version_eq (t : Timestamp) :
    generate_migration_version t = dateBlock t ++ '_' :: timeBlock t := by
  simp [generate_migration_version, dateBlock, timeBlock, List.append_assoc]

theorem no_dot_in_normalized {alnum : Char → Bool} {lc : List Char → List Char}
    (ha : alnum '.' = false) (hlc : ∀ s, ('.' : Char) ∈ lc s → ('.' : Char) ∈ s)
    (desc : List Char) :
    ('.' : Char) ∉ lc (desc.map (fun c => if alnum c then c else '_')) := by
  intro hm
  have hm2 := hlc _ hm
  rw [List.mem_map] at hm2
  obtain ⟨c, hc, he⟩ := hm2
  by_cases hac : alnum c
  · rw [if_pos hac] at he
    rw [he] at hac
    rw [ha] at hac
    exact absurd hac (by simp)
  · rw [if_neg hac] at he
    exact absurd he (by decide)

theorem no_dot_in_version (t : Timestamp) :
    ('.' : Char) ∉ generate_migration_version t := by
  rw [generate_version_eq]
  intro hm
  rcases List.mem_append.mp hm with hm | hm
  · exact absurd (dateBlock_all_digit t '.' hm) (by decide)
  · rcases List.mem_cons.mp hm with hm | hm
    · exact absurd hm (by decide)
    · exact absurd (timeBlock_all_digit t '.' hm) (by decide)

/-- C10: for every description (any characters at all) and every in-range
timestamp, the filename produced by create_migration_filename is accepted by
extract_version_from_filename with some version, so freshly created migration
files are discoverable by the scan.  The Unicode tables are parameters: the
alphanumeric classifier must reject the dot and lowercasing must not invent a
dot, both true of Unicode. -/
theorem create_migration_filename_valid (alnum : Char → Bool)
    (lc : List Char → List Char) (t : Timestamp) (description : List Char)
    (ha : alnum '.' = false)
    (hlc : ∀ s, ('.' : Char) ∈ lc s → ('.' : Char) ∈ s)
    (hy : t.year < 10000) (hmo : t.month < 100) (hd : t.day < 100)
    (hh : t.hour < 100) (hmi : t.minute < 100) (hs : t.second < 100) :
    ∃ v, extract_version_from_filename
      (create_migration_filename alnum lc t description) = .ok (some v) := by
  set D := lc (description.map (fun c => if alnum c then c else '_')) with hDdef
  have hDnd : ('.' : Char) ∉ D := no_dot_in_normalized ha hlc description
  have hfile : create_migration_filename alnum lc t description =
      (generate_migration_version t ++ '_' :: D) ++ ['.', 'c', 'q', 'l'] := by
    simp [create_migration_filename, List.append_assoc, hDdef]
  have hno : ('.' : Char) ∉ generate_migration_version t ++ '_' :: D := by
    intro hm
    rcases List.mem_append.mp hm with hm | hm
    · exact no_dot_in_version t hm
    · rcases List.mem_cons.mp hm with hm | hm
      · exact absurd hm (by decide)
      · exact hDnd hm
  have hstem : trim_end_matches_cql (create_migration_filename alnum lc t description) =
      generate_migration_version t ++ '_' :: D := by
    rw [hfile, trim_end_cql_append, trim_end_cql_of_not (cql_suffix_false hno)]
  have hstem2 : generate_migration_version t ++ '_' :: D =
      dateBlock t ++ '_' :: (timeBlock t ++ '_' :: D) := by
    rw [generate_version_eq]
    simp [List.append_assoc]
  have htake : (generate_migration_version t ++ '_' :: D).take 8 = dateBlock t := by
    rw [hstem2, ← dateBlock_length t]
    exact List.take_left _ _
  have hdrop : (generate_migration_version t ++ '_' :: D).drop 8 =
      '_' :: (timeBlock t ++ '_' :: D) := by
    rw [hstem2, ← dateBlock_length t]
    exact List.drop_left _ _
  have hpat : specVersionPattern (generate_migration_version t ++ '_' :: D) = true := by
    apply specVersionPattern_build (by rw [htake, dateBlock_length])
      (List.all_eq_true.mpr (fun c hc => dateBlock_all_digit t c (htake ▸ hc)))
      hdrop
    rw [dropWhile_append_all _ (timeBlock_all_digit t), List.dropWhile_cons,
      if_neg (by decide)]
    rfl
  refine ⟨generate_migration_version t ++ '_' :: D, ?_⟩
  have hpat2 : specVersionPattern
      (trim_end_matches_cql (create_migration_filename alnum lc t description)) = true := by
    rw [hstem]
    exact hpat
  have hres := extract_ok_of_pattern hpat2
  rw [hstem] at hres
  exact hres

/-- Witness for create_migration_filename_valid at a concrete timestamp and
description, with the ASCII alphanumeric classifier and identity lowercasing. -/
theorem create_migration_filename_valid_witness :
    ∃ v, extract_version_from_filename
      (create_migration_filename Char.isAlphanum id ⟨2025, 1, 15, 12, 30, 45⟩
        ("Hello World!".data)) = .ok (some v) :=
  create_migration_filename_valid Char.isAlphanum id ⟨2025, 1, 15, 12, 30, 45⟩
    ("Hello World!".data) (by decide) (fun _ h => h)
    (by decide) (by decide) (by decide) (by decide) (by decide) (by decide)

/-- C3 (amended): extract_version_from_filename returns some version exactly
when the stem begins with exactly 8 ASCII digits, an underscore, zero or more
ASCII digits, and then an underscore or the end of the stem, in which case
the version is the entire stem; on any other input it returns none, except
that when the rejoined first two underscore-separated segments are at least
9 bytes long and byte 8 falls inside a multi-byte character, the code panics
(byte-boundary violation of the split) instead of returning none. -/
theorem extract_version_matches_spec_pattern (filename : List Char) :
    extract_version_from_filename filename =
      (if specVersionPattern (trim_end_matches_cql filename) then
        Except.ok (some (trim_end_matches_cql filename))
      else if extract_version_panics filename then Except.error ()
      else Except.ok none) :=
  extract_version_eq_spec filename

/-- C3 counterexample: the filename 20250115_.cql has a stem whose sequence
segment contains zero digits, so the claimed pattern (one or more digits)
rejects it, yet the code accepts it and returns the stem as the version. -/
theorem extract_version_zero_digits_counterexample :
    extract_version_from_filename ("20250115_.cql".data) =
      .ok (some ("20250115_".data)) ∧
    claimedVersionPattern ("20250115_".data) = false :=
  ⟨rfl, rfl⟩

/-- C4: the claim that deriveVersion is total and never aborts is right and
the code is wrong: on a filename whose first two underscore-separated
segments are at least 9 bytes with byte 8 inside a multi-byte character
(here the two-byte e-acute spanning bytes 7..8), str::split_at(8) panics.
The model evaluates the code at the failing input to the panic value. -/
theorem extract_version_panics_on_multibyte :
    extract_version_from_filename ("aaaaaaaé_1.cql".data) = .error () ∧
    extract_version_panics ("aaaaaaaé_1.cql".data) = true :=
  ⟨rfl, rfl⟩
